import Mathlib

set_option maxRecDepth 8000
set_option linter.unusedSectionVars false

/-!
A shallow embedding of the generalized suffix tree of `src/suffixtree.h`
(template class `SuffixTree<S, C>`), together with proofs about it.

Modelling conventions:
* Nodes live in an arena `nodes : List (Node C)`; a `Node*` is an arena index
  (`Nat`), a possibly-null `Node*` is an `Option Nat`.  Index 0 is the
  permanent root, index 1 the permanent sink (`Base` allocates exactly one
  `SinkNode`, so "is the sink" is "has index 1"); the virtual override of
  `find_alpha_transition` in `SinkNode` is modelled by a test on the index.
* C++ `int` is modelled by `Int`; `std::numeric_limits<int>::max()` is the
  literal 2147483647 (no arithmetic in the modelled scenarios approaches
  overflow, the value is used as a sentinel only).
* `S` (the string type) is `List C`; `w[i]` is `sIdx w i`, which returns
  `default` out of range (as `std::string` does at `w[w.size()]`; reads
  further out of range are undefined behaviour in C++ and the model's
  `default` stands in for whatever they produce).
* Operations that are undefined behaviour in C++ - dereferencing a null
  node pointer, or dereferencing the `end()` iterator that
  `haystack.find` returns for a missing string id - make the modelled
  operation return `none`.  Loops take explicit fuel; exhausting the fuel
  (possible only outside the states the algorithm actually reaches, where
  the C++ loop would not terminate or would run into undefined behaviour)
  also gives `none`.
* `std::unordered_map` is an association list with insert-if-absent
  (`gIns`/`hIns`, matching `insert`), assign (`gSet`, matching
  `operator[]=`), lookup (`gfind`/`hfind`, matching `find`) and erase.
  Iteration order of an `unordered_map` is unspecified in C++; the model
  fixes the association-list order, and no claim depends on it.
-/

abbrev intMax : Int := 2147483647

abbrev rootId : Nat := 0
abbrev sinkId : Nat := 1

/-- `mapped_substring`: a substring reference `(ref string id, left, right)`.
`r < l` denotes an empty substring (comment in the source). -/
structure mapped_substring where
  ref_str : Int
  l : Int
  r : Int
deriving DecidableEq, Repr, Inhabited

/-- `transition`: a substring label plus a target node pointer. -/
structure transition (C : Type) where
  sub : mapped_substring
  tgt : Option Nat
deriving DecidableEq, Repr

instance {C : Type} : Inhabited (transition C) := ⟨⟨default, none⟩⟩

/-- `Node`: the transition map `g`, the suffix link, and a tag recording
whether the node was allocated as a `Leaf` (the `Leaf` subclass adds no
behaviour; the tag only records which constructor the source used). -/
structure Node (C : Type) where
  g : List (C × transition C)
  suffix_link : Option Nat
  isLeaf : Bool
deriving DecidableEq, Repr

instance {C : Type} : Inhabited (Node C) := ⟨⟨[], none, false⟩⟩

/-- The whole `SuffixTree` object: the node arena (owned by `Base`), the
string registry `haystack` and the id counter `last_index`. -/
structure STree (C : Type) where
  nodes : List (Node C)
  haystack : List (Int × List C)
  last_index : Int
deriving DecidableEq, Repr

instance {C : Type} : Inhabited (STree C) := ⟨⟨[], [], 0⟩⟩

variable {C : Type} [DecidableEq C] [Inhabited C]

/-- `w[i]` for a C++ string: `default` out of range (cf. module comment). -/
def sIdx (w : List C) (i : Int) : C :=
  if 0 ≤ i then w.getD i.toNat default else default

/-- Association-list lookup keyed by a character (`g.find(alpha)`). -/
def gfind : List (C × transition C) → C → Option (transition C)
  | [], _ => none
  | (c, t) :: g, a => if c = a then some t else gfind g a

/-- `g.insert({c, t})`: insert-if-absent, as `std::unordered_map::insert`. -/
def gIns (g : List (C × transition C)) (c : C) (t : transition C) :
    List (C × transition C) :=
  match gfind g c with
  | some _ => g
  | none => g ++ [(c, t)]

/-- `g[c] = t`: assign-or-insert, as `std::unordered_map::operator[]`. -/
def gSet : List (C × transition C) → C → transition C → List (C × transition C)
  | [], c, t => [(c, t)]
  | (c', t') :: g, c, t =>
    if c' = c then (c, t) :: g else (c', t') :: gSet g c t

/-- `haystack.find(id)` as an `Option`. -/
def hfind : List (Int × List C) → Int → Option (List C)
  | [], _ => none
  | (k, w) :: h, i => if k = i then some w else hfind h i

/-- `haystack.insert({id, w})`: insert-if-absent. -/
def hIns (h : List (Int × List C)) (k : Int) (w : List C) :
    List (Int × List C) :=
  match hfind h k with
  | some _ => h
  | none => (k, w) :: h

/-- `haystack.erase(id)`. -/
def hErase (h : List (Int × List C)) (k : Int) : List (Int × List C) :=
  h.filter (fun p => p.1 ≠ k)

/-- Fetch the node record at an arena index (`default` when out of range;
valid runs only read valid indices). -/
def getNode (st : STree C) (n : Nat) : Node C :=
  st.nodes.getD n default

def pushNode (st : STree C) (nd : Node C) : STree C :=
  { st with nodes := st.nodes ++ [nd] }

def modifyNode (st : STree C) (n : Nat) (f : Node C → Node C) : STree C :=
  { st with nodes := st.nodes.set n (f (st.nodes.getD n default)) }

def setSL (st : STree C) (n : Nat) (v : Option Nat) : STree C :=
  modifyNode st n (fun nd => { nd with suffix_link := v })

def modifyG (st : STree C) (n : Nat)
    (f : List (C × transition C) → List (C × transition C)) : STree C :=
  modifyNode st n (fun nd => { nd with g := f nd.g })

/-- `n->find_alpha_transition(alpha)`.  The base-class version returns the
stored transition, or the null transition `((0,0,-1), nullptr)`; the
`SinkNode` override synthesizes `((0,0,0), suffix_link)` for every symbol. -/
def find_alpha_transition (st : STree C) (n : Nat) (alpha : C) : transition C :=
  if n = sinkId then
    ⟨⟨0, 0, 0⟩, (getNode st sinkId).suffix_link⟩
  else
    match gfind (getNode st n).g alpha with
    | none => ⟨⟨0, 0, -1⟩, none⟩
    | some t => t

/-- `test_and_split(n, kp, t, w, &r)`: returns `(is_endpoint, r, new state)`,
or `none` where the C++ code would dereference a null `n` or the `end()`
iterator of `haystack.find`. -/
def test_and_split (st : STree C) (n? : Option Nat) (kp : mapped_substring)
    (t : C) (w : List C) : Option (Bool × Nat × STree C) :=
  match n? with
  | none => none
  | some n =>
    let tk := sIdx w kp.l
    let delta := kp.r - kp.l
    if 0 ≤ delta then
      let tkTrans := find_alpha_transition st n tk
      match hfind st.haystack tkTrans.sub.ref_str with
      | none => none
      | some strP =>
        if sIdx strP (tkTrans.sub.l + delta + 1) = t then
          some (true, n, st)
        else
          let rId := st.nodes.length
          let newT : transition C :=
            ⟨⟨tkTrans.sub.ref_str, tkTrans.sub.l + delta + 1, tkTrans.sub.r⟩,
              tkTrans.tgt⟩
          let rNode : Node C :=
            ⟨gIns [] (sIdx strP (tkTrans.sub.l + delta + 1)) newT, none, false⟩
          let st2 :=
            modifyG (pushNode st rNode) n
              (fun g => gSet g tk
                ⟨⟨tkTrans.sub.ref_str, tkTrans.sub.l, tkTrans.sub.l + delta⟩,
                  some rId⟩)
          some (false, rId, st2)
    else
      some ((find_alpha_transition st n t).tgt.isSome, n, st)

/-- The `while` loop of `canonize`.  One fuel unit per iteration; the
transition argument is refreshed only when `kp.l <= kp.r`, exactly as in the
source (otherwise the stale transition is re-examined by the loop
condition). -/
def canonizeAux (st : STree C) (w : List C) :
    Nat → Option Nat → Int → Int → transition C → Option (Option Nat × Int)
  | 0, _, _, _, _ => none
  | fuel + 1, s, l, r, tkTrans =>
    let delta := tkTrans.sub.r - tkTrans.sub.l
    if delta ≤ r - l then
      let l' := l + 1 + delta
      if l' ≤ r then
        match tkTrans.tgt with
        | none => none
        | some sId =>
          canonizeAux st w fuel (some sId) l' r
            (find_alpha_transition st sId (sIdx w l'))
      else
        canonizeAux st w fuel tkTrans.tgt l' r tkTrans
    else
      some (s, l)

/-- `canonize(s, kp)`: returns the canonical reference point `(node, l)`
(the right pointer is not part of a `reference_point` in the source). -/
def canonize (st : STree C) (s : Option Nat) (kp : mapped_substring) :
    Option (Option Nat × Int) :=
  if kp.r < kp.l then some (s, kp.l)
  else
    match hfind st.haystack kp.ref_str with
    | none => none
    | some w =>
      match s with
      | none => none
      | some sId =>
        canonizeAux st w ((kp.r - kp.l).toNat + 2) (some sId) kp.l kp.r
          (find_alpha_transition st sId (sIdx w kp.l))

/-- The `while (!is_endpoint)` loop of `update`, one fuel unit per
iteration.  Arguments mirror the local state of the loop: `oldr`, the `r`
output of the last `test_and_split`, the last `is_endpoint`, the reference
point `sk` and `ki1.l` (`ki1.r = ki.r - 1` and `ki.r` itself are fixed for
the whole loop and passed once). -/
def updateLoop (w : List C) (kiRef kiR ki1R : Int) :
    Nat → STree C → Nat → Nat → Bool → Option Nat × Int → Int →
    Option ((Option Nat × Int) × STree C)
  | 0, _, _, _, _, _, _ => none
  | _fuel + 1, st, oldr, _r, true, sk, _ki1L =>
    some (sk, if oldr ≠ rootId then setSL st oldr sk.1 else st)
  | fuel + 1, st, oldr, r, false, sk, ki1L =>
    let leafId := st.nodes.length
    let st1 := pushNode st ⟨[], none, true⟩
    let st2 := modifyG st1 r
      (fun g => gIns g (sIdx w kiR) ⟨⟨kiRef, kiR, intMax⟩, some leafId⟩)
    let st3 := if oldr ≠ rootId then setSL st2 oldr (some r) else st2
    match sk.1 with
    | none => none
    | some skn =>
      match canonize st3 (getNode st3 skn).suffix_link ⟨kiRef, ki1L, ki1R⟩ with
      | none => none
      | some (s', l') =>
        match test_and_split st3 s' ⟨kiRef, l', ki1R⟩ (sIdx w kiR) w with
        | none => none
        | some (ep', r', st4) =>
          updateLoop w kiRef kiR ki1R fuel st4 r r' ep' (s', l') l'

/-- `update(s, ki)`: walks the border path and returns the endpoint. -/
def update (fuel : Nat) (st : STree C) (s : Option Nat) (ki : mapped_substring) :
    Option ((Option Nat × Int) × STree C) :=
  match hfind st.haystack ki.ref_str with
  | none => none
  | some w =>
    match test_and_split st s ⟨ki.ref_str, ki.l, ki.r - 1⟩ (sIdx w ki.r) w with
    | none => none
    | some (ep, r, st1) =>
      updateLoop w ki.ref_str ki.r (ki.r - 1) fuel st1 rootId r ep (s, ki.l) ki.l

/-- Result of the inner character-comparison loop of `get_starting_node`. -/
inductive ScanRes where
  | runout
  | mismatch (i : Int)
  | consumed (i : Int)
  | crash
deriving DecidableEq, Repr

/-- The inner `for (i = 1; i <= t.sub.r - t.sub.l; ++i)` loop of
`get_starting_node`: scan the edge whose (possibly absent) reference string
is `ostr`, starting the new string `s` at `k`, the edge string at `subl`.
The `end()` iterator for a missing reference string is dereferenced only if
an actual character comparison happens (`crash` then). -/
def edgeScan (s : List C) (ostr : Option (List C)) (k subl bound : Int) :
    Nat → Int → ScanRes
  | 0, _ => ScanRes.crash
  | fuel + 1, j =>
    if j ≤ bound then
      if (s.length : Int) ≤ k + j then ScanRes.runout
      else
        match ostr with
        | none => ScanRes.crash
        | some str =>
          if sIdx s (k + j) = sIdx str (subl + j) then
            edgeScan s ostr k subl bound fuel (j + 1)
          else ScanRes.mismatch j
    else ScanRes.consumed j

/-- The outer `while (!s_runout)` loop of `get_starting_node`.  Returns
`(return value, r->first, r->second.second)`.  Note that the
"no outgoing transition" branch returns `k` *without* storing `k` into
`r->second.second`, exactly as the source does. -/
def gsnLoop (st : STree C) (s : List C) :
    Nat → Nat → Int → Int → Option (Int × Nat × Int)
  | 0, _, _, _ => none
  | fuel + 1, node, k, rl =>
    let t := find_alpha_transition st node (sIdx s k)
    match t.tgt with
    | none => some (k, node, rl)
    | some tgtId =>
      match edgeScan s (hfind st.haystack t.sub.ref_str) k t.sub.l
          (t.sub.r - t.sub.l) (s.length + 2) 1 with
      | ScanRes.crash => none
      | ScanRes.runout => some (intMax, node, intMax)
      | ScanRes.mismatch i => some (k + i, node, k)
      | ScanRes.consumed i => gsnLoop st s fuel tgtId (k + i) rl

/-- `get_starting_node(s, &r)` with `r = (node, (sindex, l))` on entry. -/
def get_starting_node (st : STree C) (s : List C) (node : Nat) (l : Int) :
    Option (Int × Nat × Int) :=
  gsnLoop st s (st.nodes.length + s.length + 4) node l l

/-- Fuel used for one `update` call (generous; only states outside any
real execution could need more, and those runs end in `none` anyway). -/
def updFuel (st : STree C) (s : List C) : Nat :=
  st.nodes.length + 2 * s.length + 16

/-- The `for (; i < s.length(); ++i)` loop of `deploy_suffixes`. -/
def deployLoop (sindex : Int) (s : List C) :
    Nat → STree C → Option Nat × Int → Int → Option (Int × STree C)
  | 0, _, _, _ => none
  | fuel + 1, st, active, i =>
    if i < (s.length : Int) then
      match update (updFuel st s) st active.1 ⟨sindex, active.2, i⟩ with
      | none => none
      | some (sk, st1) =>
        match canonize st1 sk.1 ⟨sindex, sk.2, i⟩ with
        | none => none
        | some (a, l) => deployLoop sindex s fuel st1 (a, l) (i + 1)
    else some (sindex, st)

/-- `deploy_suffixes(s, sindex)`. -/
def deploy_suffixes (st : STree C) (s : List C) (sindex : Int) :
    Option (Int × STree C) :=
  match get_starting_node st s rootId 0 with
  | none => none
  | some (i, node, l) =>
    if i = intMax then some (-1, st)
    else deployLoop sindex s (s.length + 2) st (some node, l) i

/-- `addString(new_string)`: returns `(returned id or -1, new state)`, or
`none` where the construction runs into undefined behaviour. -/
def addString (st : STree C) (w : List C) : Option (Int × STree C) :=
  let idx := st.last_index + 1
  let st1 : STree C := ⟨st.nodes, hIns st.haystack idx w, idx⟩
  match deploy_suffixes st1 w idx with
  | none => none
  | some (res, st2) =>
    if res < 0 then
      some (-1, ⟨st2.nodes, hErase st2.haystack idx, st2.last_index - 1⟩)
    else some (idx, st2)

/-- The freshly constructed tree: root (index 0) and sink (index 1) with
their mutual suffix links, empty registry, `last_index = 0`. -/
def initState : STree C :=
  ⟨[⟨[], some sinkId, false⟩, ⟨[], some rootId, false⟩], [], 0⟩

/-- Run a list of insertions from the empty tree, collecting the returned
values. -/
def runGo : List (List C) → STree C → List Int → Option (List Int × STree C)
  | [], st, acc => some (acc.reverse, st)
  | w :: ws, st, acc =>
    match addString st w with
    | none => none
    | some (r, st') => runGo ws st' (r :: acc)

def runList (ws : List (List C)) : Option (List Int × STree C) :=
  runGo ws initState []

/-- The worklist loop of `Base::clean`.  The worklist holds the raw stored
target pointers (`push_back(it.second.tgt)`); popping a null pointer models
the null dereference `current->g` would be.  Returns the list of deleted
nodes in deletion order. -/
def cleanLoop (st : STree C) :
    Nat → List (Option Nat) → List Nat → Option (List Nat)
  | 0, _, _ => none
  | _fuel + 1, [], freed => some freed.reverse
  | fuel + 1, w :: rest, freed =>
    match w with
    | none => none
    | some n =>
      cleanLoop st fuel (rest ++ (getNode st n).g.map (fun p => p.2.tgt))
        (if n ≠ rootId then n :: freed else freed)

/-- Fuel that always suffices for `cleanLoop` on tree-shaped states: one
pop for the root plus one per stored transition. -/
def cleanFuel (st : STree C) : Nat :=
  (st.nodes.map (fun nd => nd.g.length)).sum + 2

/-- `Base::clean()`: the iterative teardown traversal, started at the root. -/
def clean (st : STree C) : Option (List Nat) :=
  cleanLoop st (cleanFuel st) [some rootId] []

/-! ## Declarative layer: resolved labels and paths -/

/-- The characters `l .. r` (a closed range) of `w`. -/
def wSeg (w : List C) (l r : Int) : List C :=
  (w.drop l.toNat).take (r + 1 - l).toNat

/-- Resolve a substring reference through the string registry: the
characters at positions `sub.l .. sub.r` of the referenced string, clamped
to the string's actual extent (so an open substring, `sub.r = intMax`,
resolves to "until the current end of the string", and `sub.r < sub.l`
resolves to no characters); a missing string id resolves to no characters. -/
def resolveSub (st : STree C) (sub : mapped_substring) : List C :=
  match hfind st.haystack sub.ref_str with
  | none => []
  | some w => wSeg w sub.l sub.r

/-- `PathSpell st a u b`: from node `a` there is a path of stored
transitions to node `b` whose substring references, resolved through the
registry, concatenate to exactly `u`. -/
inductive PathSpell (st : STree C) : Nat → List C → Nat → Prop
  | nil (a : Nat) : PathSpell st a [] a
  | cons {a b n' : Nat} {c : C} {tr : transition C} {u : List C} :
      (c, tr) ∈ (getNode st a).g → tr.tgt = some b →
      PathSpell st b u n' → PathSpell st a (resolveSub st tr.sub ++ u) n'

/-- `u` is traceable in the tree: some path of stored transitions from the
root spells a string of which `u` is a prefix (so `u` itself may end in the
middle of the final transition's label). -/
def Traceable (st : STree C) (u : List C) : Prop :=
  ∃ p n', PathSpell st rootId p n' ∧ u <+: p

/-- Bounded decidable search for `Traceable`, following only transitions
with a nonempty resolved label. -/
def traceB (st : STree C) (fuel : Nat) (n : Nat) (u : List C) : Bool :=
  match u with
  | [] => true
  | _ :: _ =>
    match fuel with
    | 0 => false
    | fuel + 1 =>
      (getNode st n).g.any (fun p =>
        match p.2.tgt with
        | none => false
        | some b =>
          let lab := resolveSub st p.2.sub
          decide (u <+: lab) ||
            (decide (lab ≠ []) && decide (lab <+: u) &&
              traceB st fuel b (u.drop lab.length)))

lemma traceB_sound (st : STree C) :
    ∀ (fuel : Nat) (n : Nat) (u : List C), traceB st fuel n u = true →
      ∃ p n', PathSpell st n p n' ∧ u <+: p := by
  intro fuel
  induction fuel with
  | zero =>
    intro n u h
    cases u with
    | nil => exact ⟨[], n, PathSpell.nil n, List.nil_prefix⟩
    | cons a u' => simp [traceB] at h
  | succ fuel ih =>
    intro n u h
    cases u with
    | nil => exact ⟨[], n, PathSpell.nil n, List.nil_prefix⟩
    | cons a u' =>
      rw [traceB, List.any_eq_true] at h
      obtain ⟨⟨c, tr⟩, hmem, hp⟩ := h
      revert hp
      cases htgt : tr.tgt with
      | none => intro hp; simp at hp
      | some b =>
        intro hp
        simp only [Bool.or_eq_true, Bool.and_eq_true, decide_eq_true_eq] at hp
        rcases hp with hpre | ⟨⟨hne, hlab⟩, hrec⟩
        · exact ⟨resolveSub st tr.sub ++ [], b,
            PathSpell.cons hmem htgt (PathSpell.nil b), by
              simpa using hpre⟩
        · obtain ⟨p, n', hpath, hpre⟩ := ih b _ hrec
          refine ⟨resolveSub st tr.sub ++ p, n',
            PathSpell.cons hmem htgt hpath, ?_⟩
          obtain ⟨s₁, hs₁⟩ := hlab
          obtain ⟨s₂, hs₂⟩ := hpre
          exact ⟨s₂, by
            rw [← hs₁, List.append_assoc]
            congr 1
            have : s₁ = (a :: u').drop (resolveSub st tr.sub).length := by
              rw [← hs₁, List.drop_left]
            rw [← hs₂, this]⟩

/-- States reached in the counterexample and bug scenarios. -/
def stXX : STree Nat :=
  ((runList ([[1, 1]] : List (List Nat))).map Prod.snd).getD default

def stXaXb : STree Nat :=
  ((runList ([[1, 3], [1, 4]] : List (List Nat))).map Prod.snd).getD default

def stAbac : STree Nat :=
  ((runList ([[3, 4, 3, 5]] : List (List Nat))).map Prod.snd).getD default

/-! ## Claim C4: the sink's total lookup -/

/-- Claim C4, counterexample: in the freshly built tree the sink's lookup
for an arbitrary symbol (7, which was never inserted) does return a
transition whose target is the root, but its substring reference is
`(0,0,0)`, which is NOT empty under the stated convention: `right < left`
fails because `right = left = 0`. -/
theorem C4_counterexample :
    find_alpha_transition (initState (C := Nat)) sinkId 7 =
      ⟨⟨0, 0, 0⟩, some rootId⟩ ∧
    ¬ ((find_alpha_transition (initState (C := Nat)) sinkId 7).sub.r <
       (find_alpha_transition (initState (C := Nat)) sinkId 7).sub.l) := by
  decide

/-- Claim C4, amended: for every queried symbol, whether or not it was ever
part of an inserted string, the sink's lookup returns the transition
`((0,0,0), sink's suffix link)` - a substring reference of length one under
the closed-range convention, not an empty one - and in the initial state
(whose wiring of the mutual root/sink links is never touched again, see
C8) that target is the root. -/
theorem C4_theorem :
    (∀ (st : STree C) (c : C),
      find_alpha_transition st sinkId c =
        ⟨⟨0, 0, 0⟩, (getNode st sinkId).suffix_link⟩) ∧
    (∀ c : C, find_alpha_transition (initState (C := C)) sinkId c =
        ⟨⟨0, 0, 0⟩, some rootId⟩) :=
  ⟨fun _ _ => rfl, fun _ => rfl⟩

/-! ## Claim C3: the fast-forward walk's "no transition" stop -/

/-- Claim C3 (a code bug): after inserting `abac` (= `[3,4,3,5]`, id 1),
the tree has an internal node (index 4) at the end of the root's `a`-edge
with transitions only for `b` and `c`.  Fast-forwarding `ad` (= `[3,6]`)
consumes that edge and stops at node 4 because no transition for `d = 6`
exists; the walk returns the current position `k = 1`, but the reference
point it leaves behind still carries offset `0`, not `k` - so the resume
point does not denote the current position `(node 4, empty remaining
substring)` as the specification states.  Resuming the extension engine
from that stale reference point makes `test_and_split` look up the symbol
`w[0]` at node 4 and dereference the missing registry entry for string id
0: undefined behaviour in C++, `none` in the model. -/
theorem C3_theorem :
    runList ([[3, 4, 3, 5]] : List (List Nat)) = some ([1], stAbac) ∧
    get_starting_node stAbac ([3, 6] : List Nat) rootId 0 = some (1, 4, 0) ∧
    (4 : Nat) ≠ rootId ∧ (0 : Int) ≠ 1 ∧
    addString stAbac ([3, 6] : List Nat) = none := by
  decide

/-! ## Claim C1, counterexample -/

/-- Claim C1, counterexample: inserting `xx` (= `[1,1]`) succeeds with
id 1, yet the non-empty suffix `x` (= `[1]`) corresponds to no traversable
path from the root whose resolved transition labels concatenate to exactly
`[1]`: the root's only transition resolves to `[1,1]`, so the suffix ends
in the middle of that edge. -/
theorem C1_counterexample :
    runList ([[1, 1]] : List (List Nat)) = some ([1], stXX) ∧
    ¬ ∃ m, PathSpell stXX rootId ([1] : List Nat) m := by
  refine ⟨by decide, ?_⟩
  rintro ⟨m, h⟩
  have hg : (getNode stXX rootId).g =
      [(1, ⟨⟨1, 0, intMax⟩, some 2⟩)] := by decide
  generalize hu : ([1] : List Nat) = u at h
  cases h with
  | nil => simp at hu
  | cons hmem htgt hrest =>
    rw [hg] at hmem
    simp only [List.mem_singleton, Prod.mk.injEq] at hmem
    obtain ⟨hc, htr⟩ := hmem
    subst htr
    have hres : resolveSub stXX (⟨1, 0, intMax⟩ : mapped_substring) =
        [1, 1] := by decide
    rw [hres] at hu
    simp at hu

/-! ## Claim C2, counterexample -/

/-- Claim C2, counterexample: after inserting `xa` (= `[1,3]`, id 1) and
`xb` (= `[1,4]`, id 2), the string `x` (= `[1]`) is entirely subsumed by
existing tree structure - it matches an existing path from the root all the
way to its own end (the root's `x`-edge now resolves to exactly `[1]`) with
no divergence - and yet `addString` does NOT return the failure sentinel:
it returns the fresh id 3.  Subsumption whose endpoint falls exactly on a
node is not detected. -/
theorem C2_counterexample :
    runList ([[1, 3], [1, 4]] : List (List Nat)) = some ([1, 2], stXaXb) ∧
    Traceable stXaXb ([1] : List Nat) ∧
    (addString stXaXb ([1] : List Nat)).map Prod.fst = some 3 := by
  refine ⟨by decide, ?_, by decide⟩
  exact traceB_sound stXaXb 10 rootId [1] (by decide)

/-! ## Frame lemmas: what the engine does and does not touch -/

lemma test_and_split_frame {st : STree C} {n? : Option Nat}
    {kp : mapped_substring} {t : C} {w : List C} {ep : Bool} {r : Nat}
    {st' : STree C} (h : test_and_split st n? kp t w = some (ep, r, st')) :
    st'.haystack = st.haystack ∧ st'.last_index = st.last_index := by
  cases n? with
  | none => simp [test_and_split] at h
  | some n =>
    simp only [test_and_split] at h
    split at h
    · split at h
      · simp at h
      · split at h
        · simp only [Option.some.injEq, Prod.mk.injEq] at h
          obtain ⟨-, -, h3⟩ := h
          subst h3; exact ⟨rfl, rfl⟩
        · simp only [Option.some.injEq, Prod.mk.injEq] at h
          obtain ⟨-, -, h3⟩ := h
          subst h3; exact ⟨rfl, rfl⟩
    · simp only [Option.some.injEq, Prod.mk.injEq] at h
      obtain ⟨-, -, h3⟩ := h
      subst h3; exact ⟨rfl, rfl⟩

lemma updateLoop_frame {w : List C} {kiRef kiR ki1R : Int} :
    ∀ {fuel : Nat} {st : STree C} {oldr r : Nat} {ep : Bool}
      {sk : Option Nat × Int} {ki1L : Int} {sk' : Option Nat × Int}
      {st' : STree C},
      updateLoop w kiRef kiR ki1R fuel st oldr r ep sk ki1L =
        some (sk', st') →
      st'.haystack = st.haystack ∧ st'.last_index = st.last_index := by
  intro fuel
  induction fuel with
  | zero => intro st oldr r ep sk ki1L sk' st' h; simp [updateLoop] at h
  | succ fuel ih =>
    intro st oldr r ep sk ki1L sk' st' h
    cases ep with
    | true =>
      simp only [updateLoop] at h
      simp only [Option.some.injEq, Prod.mk.injEq] at h
      obtain ⟨-, h2⟩ := h
      subst h2
      split <;> exact ⟨rfl, rfl⟩
    | false =>
      simp only [updateLoop] at h
      split at h
      · simp at h
      all_goals
        split at h
        · simp at h
        all_goals
          split at h
          · simp at h
          all_goals
            rename_i hts
            have h4 := test_and_split_frame hts
            have h5 := ih h
            refine ⟨h5.1.trans (h4.1.trans ?_), h5.2.trans (h4.2.trans ?_)⟩ <;>
              (split <;> rfl)

lemma update_frame {fuel : Nat} {st : STree C} {s : Option Nat}
    {ki : mapped_substring} {sk' : Option Nat × Int} {st' : STree C}
    (h : update fuel st s ki = some (sk', st')) :
    st'.haystack = st.haystack ∧ st'.last_index = st.last_index := by
  simp only [update] at h
  split at h
  · simp at h
  · split at h
    · simp at h
    · rename_i hts
      have h1 := test_and_split_frame hts
      have h2 := updateLoop_frame h
      exact ⟨h2.1.trans h1.1, h2.2.trans h1.2⟩

lemma deployLoop_frame {sindex : Int} {s : List C} :
    ∀ {fuel : Nat} {st : STree C} {active : Option Nat × Int} {i : Int}
      {res : Int} {st' : STree C},
      deployLoop sindex s fuel st active i = some (res, st') →
      res = sindex ∧ st'.haystack = st.haystack ∧
        st'.last_index = st.last_index := by
  intro fuel
  induction fuel with
  | zero => intro st active i res st' h; simp [deployLoop] at h
  | succ fuel ih =>
    intro st active i res st' h
    simp only [deployLoop] at h
    split at h
    case isTrue =>
      split at h
      · simp at h
      all_goals
        split at h
        · simp at h
        all_goals
          rename_i hupd _ _ _ _
          have h1 := update_frame hupd
          have h2 := ih h
          exact ⟨h2.1, h2.2.1.trans h1.1, h2.2.2.trans h1.2⟩
    case isFalse =>
      simp only [Option.some.injEq, Prod.mk.injEq] at h
      obtain ⟨h1, h2⟩ := h
      subst h2
      exact ⟨h1.symm, rfl, rfl⟩

lemma hfind_none_forall {h : List (Int × List C)} {k : Int}
    (hf : hfind h k = none) : ∀ p ∈ h, p.1 ≠ k := by
  induction h with
  | nil => intro p hp; simp at hp
  | cons q h ih =>
    intro p hp
    rw [hfind] at hf
    split at hf
    · simp at hf
    · rename_i hq
      rcases List.mem_cons.mp hp with rfl | hp
      · exact hq
      · exact ih hf p hp

lemma hErase_hIns {h : List (Int × List C)} {k : Int} {w : List C}
    (hf : hfind h k = none) : hErase (hIns h k w) k = h := by
  unfold hIns
  rw [hf]
  unfold hErase
  rw [List.filter_cons]
  simp only [ne_eq, not_true_eq_false, decide_False, Bool.false_eq_true,
    if_false]
  exact List.filter_eq_self.mpr (fun p hp => by
    simpa using hfind_none_forall hf p hp)

/-- Outcome of `addString` on any state with a sane id counter: either the
degenerate failure (result `-1`, nodes untouched, id counter restored) or
success with the next sequential id. -/
lemma addString_spec {st : STree C} {w : List C} {res : Int} {st' : STree C}
    (hge : 0 ≤ st.last_index) (h : addString st w = some (res, st')) :
    (res = -1 ∧ st'.last_index = st.last_index ∧
      st'.nodes = st.nodes ∧
      st'.haystack =
        hErase (hIns st.haystack (st.last_index + 1) w)
          (st.last_index + 1)) ∨
    (res = st.last_index + 1 ∧ st'.last_index = st.last_index + 1 ∧
      st'.haystack = hIns st.haystack (st.last_index + 1) w) := by
  simp only [addString] at h
  split at h
  · simp at h
  all_goals
    rename_i hdep
    simp only [deploy_suffixes] at hdep
    split at hdep
    · simp at hdep
    all_goals
      split at hdep
      case isTrue =>
        simp only [Option.some.injEq, Prod.mk.injEq] at hdep
        obtain ⟨h1, h2⟩ := hdep
        subst h1
        subst h2
        split at h
        · simp only [Option.some.injEq, Prod.mk.injEq] at h
          obtain ⟨hr, hst⟩ := h
          subst hst
          refine Or.inl ⟨hr.symm, ?_, rfl, rfl⟩
          dsimp only
          omega
        · rename_i hneg
          omega
      case isFalse =>
        have h2 := deployLoop_frame hdep
        obtain ⟨hres0, hhay, hlast⟩ := h2
        split at h
        · rename_i hneg
          omega
        · simp only [Option.some.injEq, Prod.mk.injEq] at h
          obtain ⟨hr, hst⟩ := h
          subst hst
          exact Or.inr ⟨hr.symm, by rw [hlast], by rw [hhay]⟩

/-! ## Claim C10: a failed insertion leaves the structure unchanged -/

/-- Claim C10: whenever `addString` returns the failure sentinel `-1` (from
a state whose id counter is sane and whose registry does not already hold
the id about to be used - true of every state the tree actually reaches),
the whole structure is left exactly as it was: the node arena is untouched
(so no node was allocated and no transition or suffix link changed - the
degenerate case is detected by the fast-forward walk before the extension
engine runs), and the registry entry and id counter are rolled back. -/
theorem C10_theorem {st : STree C} {w : List C} {st' : STree C}
    (hge : 0 ≤ st.last_index)
    (hfr : hfind st.haystack (st.last_index + 1) = none)
    (h : addString st w = some (-1, st')) :
    st'.nodes = st.nodes ∧ st'.haystack = st.haystack ∧
    st'.last_index = st.last_index := by
  rcases addString_spec hge h with ⟨-, hl, hn, hh⟩ | ⟨hbad, -, -⟩
  · exact ⟨hn, by rw [hh, hErase_hIns hfr], hl⟩
  · omega

/-- Claim C10, witness: inserting `x` after `xx` fails with `-1` and
restores the state exactly. -/
theorem C10_witness :
    0 ≤ stXX.last_index ∧
    hfind stXX.haystack (stXX.last_index + 1) = none ∧
    ∃ st', addString stXX ([1] : List Nat) = some (-1, st') ∧
      st'.nodes = stXX.nodes ∧ st'.haystack = stXX.haystack ∧
      st'.last_index = stXX.last_index := by
  refine ⟨by decide, by decide, ?_⟩
  rcases hrun : addString stXX ([1] : List Nat) with - | p
  · exact absurd hrun (by decide)
  · obtain ⟨res, st'⟩ := p
    have hres : res = -1 := by
      have := congrArg (Option.map Prod.fst) hrun
      rw [show (addString stXX ([1] : List Nat)).map Prod.fst =
        some (-1) from by decide] at this
      simpa using this.symm
    subst hres
    refine ⟨st', rfl, ?_⟩
    exact C10_theorem (by decide) (by decide) hrun

/-! ## Claim C7: sequential id assignment -/

/-- The ids `a, a+1, ..., a+k-1`. -/
def consecutive (a : Int) : Nat → List Int
  | 0 => []
  | k + 1 => a :: consecutive (a + 1) k

lemma hfind_hIns_ne {h : List (Int × List C)} {k k' : Int} {w : List C}
    (hne : k' ≠ k) : hfind (hIns h k w) k' = hfind h k' := by
  unfold hIns
  split
  · rfl
  · rw [hfind]
    split
    · rename_i hk; exact absurd hk.symm hne
    · rfl

/-- One step of the id bookkeeping, with the well-formedness that every id
beyond `last_index` is unregistered. -/
lemma addString_ids {st : STree C} {w : List C} {res : Int} {st' : STree C}
    (hge : 0 ≤ st.last_index)
    (hwf : ∀ k, st.last_index < k → hfind st.haystack k = none)
    (h : addString st w = some (res, st')) :
    (0 ≤ st'.last_index ∧
      (∀ k, st'.last_index < k → hfind st'.haystack k = none)) ∧
    ((res = -1 ∧ st'.last_index = st.last_index) ∨
      (res = st.last_index + 1 ∧ st'.last_index = st.last_index + 1)) := by
  rcases addString_spec hge h with ⟨hr, hl, -, hh⟩ | ⟨hr, hl, hh⟩
  · refine ⟨⟨by omega, ?_⟩, Or.inl ⟨hr, hl⟩⟩
    intro k hk
    rw [hl] at hk
    rw [hh, hErase_hIns (hwf _ (by omega))]
    exact hwf _ hk
  · refine ⟨⟨by omega, ?_⟩, Or.inr ⟨hr, hl⟩⟩
    intro k hk
    rw [hl] at hk
    rw [hh, hfind_hIns_ne (by omega)]
    exact hwf _ (by omega)

lemma runGo_ids :
    ∀ (ws : List (List C)) (st : STree C) (acc rs : List Int)
      (st' : STree C),
      0 ≤ st.last_index →
      (∀ k, st.last_index < k → hfind st.haystack k = none) →
      runGo ws st acc = some (rs, st') →
      ∃ (tail : List Int) (k : Nat),
        rs = acc.reverse ++ tail ∧
        tail.filter (fun x => x ≠ -1) = consecutive (st.last_index + 1) k ∧
        st'.last_index = st.last_index + k ∧
        (0 : Int) ∉ tail := by
  intro ws
  induction ws with
  | nil =>
    intro st acc rs st' hge hwf h
    simp only [runGo, Option.some.injEq, Prod.mk.injEq] at h
    obtain ⟨h1, h2⟩ := h
    subst h2
    exact ⟨[], 0, by simpa using h1.symm, rfl, by simp [consecutive], by simp⟩
  | cons w ws ih =>
    intro st acc rs st' hge hwf h
    rw [runGo] at h
    cases hadd : addString st w with
    | none => rw [hadd] at h; simp at h
    | some p =>
      obtain ⟨res, st1⟩ := p
      rw [hadd] at h
      have h' : runGo ws st1 (res :: acc) = some (rs, st') := h
      obtain ⟨⟨hge1, hwf1⟩, hcase⟩ := addString_ids hge hwf hadd
      obtain ⟨tail, k, h1, h2, h3, h4⟩ :=
        ih st1 (res :: acc) rs st' hge1 hwf1 h'
      rw [List.reverse_cons, List.append_assoc] at h1
      simp only [List.cons_append, List.nil_append] at h1
      rcases hcase with ⟨hr, hl⟩ | ⟨hr, hl⟩
      · subst hr
        refine ⟨-1 :: tail, k, h1, ?_, by omega, by simp [h4]⟩
        rw [List.filter_cons]
        have hd : (decide ((-1 : Int) ≠ -1)) = false := by simp
        rw [hd]
        simp only [Bool.false_eq_true, if_false]
        rw [h2, hl]
      · subst hr
        refine ⟨(st.last_index + 1) :: tail, k + 1, h1, ?_, by omega, ?_⟩
        · rw [List.filter_cons]
          have hd : (decide ((st.last_index + 1 : Int) ≠ -1)) = true := by
            simp only [ne_eq, decide_eq_true_eq]
            omega
          rw [hd]
          simp only [if_true]
          rw [h2, hl]
          rfl
        · simp only [List.mem_cons, not_or]
          exact ⟨by omega, h4⟩

/-- Claim C7: starting from the empty tree, over any crash-free sequence of
insertions the successful calls return the ids `1, 2, 3, ...` in order
(independently of interleaved failed attempts), id 0 is never returned, the
id counter equals the number of successes; and on any failed insertion
(from a sane state) the registry entry created for the string is removed
and the id counter is not consumed, so the same id is reused next. -/
theorem C7_theorem :
    (∀ (ws : List (List C)) (rs : List Int) (st' : STree C),
      runList ws = some (rs, st') →
      ∃ k : Nat, rs.filter (fun x => x ≠ -1) = consecutive 1 k ∧
        st'.last_index = (k : Int) ∧ (0 : Int) ∉ rs) ∧
    (∀ (st : STree C) (w : List C) (st' : STree C),
      0 ≤ st.last_index →
      hfind st.haystack (st.last_index + 1) = none →
      addString st w = some (-1, st') →
      st'.last_index = st.last_index ∧ st'.haystack = st.haystack) := by
  constructor
  · intro ws rs st' h
    obtain ⟨tail, k, h1, h2, h3, h4⟩ :=
      runGo_ids ws initState [] rs st' (le_refl 0)
        (fun k _ => rfl) h
    refine ⟨k, ?_, ?_, ?_⟩
    · simpa [h1] using h2
    · simp only [initState] at h3
      omega
    · simpa [h1] using h4
  · intro st w st' hge hfr h
    have := C10_theorem hge hfr h
    exact ⟨this.2.2, this.2.1⟩

/-- Claim C7, witness: the run `xx`, `x`, `ab` returns `[1, -1, 2]` - the
failed second attempt does not consume id 2 - and the rollback part applies
to the concrete failing call. -/
theorem C7_witness :
    (∃ k : Nat,
      ([1, -1, 2] : List Int).filter (fun x => x ≠ -1) = consecutive 1 k ∧
      ((((runList ([[1, 1], [1], [3, 4]] : List (List Nat))).map
          Prod.snd).getD default).last_index = (k : Int)) ∧
      (0 : Int) ∉ ([1, -1, 2] : List Int)) ∧
    (∃ st', addString stXX ([1] : List Nat) = some (-1, st') ∧
      st'.last_index = stXX.last_index ∧ st'.haystack = stXX.haystack) := by
  constructor
  · obtain ⟨k, h1, h2, h3⟩ := (C7_theorem (C := Nat)).1
      [[1, 1], [1], [3, 4]] [1, -1, 2]
      (((runList ([[1, 1], [1], [3, 4]] : List (List Nat))).map
          Prod.snd).getD default) (by decide)
    exact ⟨k, h1, h2, h3⟩
  · rcases hrun : addString stXX ([1] : List Nat) with - | p
    · exact absurd hrun (by decide)
    · obtain ⟨res, st'⟩ := p
      have hres : res = -1 := by
        have := congrArg (Option.map Prod.fst) hrun
        rw [show (addString stXX ([1] : List Nat)).map Prod.fst =
          some (-1) from by decide] at this
        simpa using this.symm
      subst hres
      refine ⟨st', rfl, ?_⟩
      exact (C7_theorem (C := Nat)).2 stXX [1] st' (by decide) (by decide) hrun

/-! ## Arena access lemmas -/

lemma getNode_pushNode_lt {st : STree C} {nd : Node C} {m : Nat}
    (h : m < st.nodes.length) : getNode (pushNode st nd) m = getNode st m := by
  simp only [getNode, pushNode, List.getD_eq_getElem?_getD]
  rw [List.getElem?_append_left h]

lemma getNode_pushNode_self {st : STree C} {nd : Node C} :
    getNode (pushNode st nd) st.nodes.length = nd := by
  simp only [getNode, pushNode, List.getD_eq_getElem?_getD]
  rw [List.getElem?_concat_length]
  rfl

lemma getNode_modifyNode_self {st : STree C} {n : Nat} {f : Node C → Node C}
    (h : n < st.nodes.length) :
    getNode (modifyNode st n f) n = f (getNode st n) := by
  simp only [getNode, modifyNode, List.getD_eq_getElem?_getD]
  rw [List.getElem?_set_eq_of_lt _ h]
  rfl

lemma getNode_modifyNode_ne {st : STree C} {n m : Nat} {f : Node C → Node C}
    (h : m ≠ n) : getNode (modifyNode st n f) m = getNode st m := by
  simp only [getNode, modifyNode, List.getD_eq_getElem?_getD]
  rw [List.getElem?_set_ne (fun hc => h hc.symm)]

lemma modifyNode_len {st : STree C} {n : Nat} {f : Node C → Node C} :
    (modifyNode st n f).nodes.length = st.nodes.length := by
  simp [modifyNode]

lemma pushNode_len {st : STree C} {nd : Node C} :
    (pushNode st nd).nodes.length = st.nodes.length + 1 := by
  simp [pushNode]

lemma gfind_gSet_self (g : List (C × transition C)) (c : C)
    (t : transition C) : gfind (gSet g c t) c = some t := by
  induction g with
  | nil => simp [gSet, gfind]
  | cons p g ih =>
    obtain ⟨c', t'⟩ := p
    rw [gSet]
    split
    · rw [gfind, if_pos rfl]
    · rename_i hne
      rw [gfind, if_neg hne, ih]

lemma gfind_gSet_ne (g : List (C × transition C)) {c c' : C}
    (t : transition C) (h : c' ≠ c) :
    gfind (gSet g c t) c' = gfind g c' := by
  have hcc : ¬ c = c' := fun he => h he.symm
  induction g with
  | nil =>
    show gfind [(c, t)] c' = none
    rw [gfind, if_neg hcc]; rfl
  | cons p g ih =>
    obtain ⟨c'', t'⟩ := p
    by_cases hc : c'' = c
    · subst hc
      rw [gSet, if_pos rfl, gfind, gfind, if_neg hcc, if_neg hcc]
    · rw [gSet, if_neg hc, gfind, gfind, ih]

lemma getNode_modifyG_self {st : STree C} {n : Nat}
    {f : List (C × transition C) → List (C × transition C)}
    (h : n < st.nodes.length) :
    getNode (modifyG st n f) n = { getNode st n with g := f (getNode st n).g } :=
  getNode_modifyNode_self h

lemma getNode_modifyG_ne {st : STree C} {n m : Nat}
    {f : List (C × transition C) → List (C × transition C)} (h : m ≠ n) :
    getNode (modifyG st n f) m = getNode st m :=
  getNode_modifyNode_ne h

lemma getNode_setSL_self {st : STree C} {n : Nat} {v : Option Nat}
    (h : n < st.nodes.length) :
    getNode (setSL st n v) n = { getNode st n with suffix_link := v } :=
  getNode_modifyNode_self h

lemma getNode_setSL_ne {st : STree C} {n m : Nat} {v : Option Nat}
    (h : m ≠ n) : getNode (setSL st n v) m = getNode st m :=
  getNode_modifyNode_ne h

lemma modifyG_len {st : STree C} {n : Nat}
    {f : List (C × transition C) → List (C × transition C)} :
    (modifyG st n f).nodes.length = st.nodes.length :=
  modifyNode_len

lemma setSL_len {st : STree C} {n : Nat} {v : Option Nat} :
    (setSL st n v).nodes.length = st.nodes.length :=
  modifyNode_len

/-! ## Claim C5: test_and_split -/

/-- Claim C5: `test_and_split(n, kp, t)` behaves as specified.
If `kp` is empty it allocates nothing, outputs node `n`, and reports
"is endpoint" exactly when `n` already has a transition for `t`.
If `kp` is non-empty and the symbol at offset `delta + 1`
(`delta = kp.r - kp.l`) along the edge for `kp`'s first symbol equals `t`,
it reports "is endpoint" with output node `n` and changes nothing.
Otherwise it splits that edge: it allocates exactly one new node (the arena
grows by one) whose single outgoing transition is the tail of the original
edge from the split point onward, preserving the original target; the
original edge is shortened to end at the new node; no other edge of `n`,
no other pre-existing node, and nothing else in the state is modified.
In every case at most one node is allocated and at most one pre-existing
edge is modified. -/
theorem C5_theorem (st : STree C) (nId : Nat) (kp : mapped_substring)
    (t : C) (w : List C) :
    (kp.r < kp.l →
      test_and_split st (some nId) kp t w =
        some ((find_alpha_transition st nId t).tgt.isSome, nId, st)) ∧
    (∀ (tkTrans : transition C) (strP : List C),
      0 ≤ kp.r - kp.l →
      find_alpha_transition st nId (sIdx w kp.l) = tkTrans →
      hfind st.haystack tkTrans.sub.ref_str = some strP →
      (sIdx strP (tkTrans.sub.l + (kp.r - kp.l) + 1) = t →
        test_and_split st (some nId) kp t w = some (true, nId, st)) ∧
      (sIdx strP (tkTrans.sub.l + (kp.r - kp.l) + 1) ≠ t →
        nId < st.nodes.length →
        ∃ ep r st',
          test_and_split st (some nId) kp t w = some (ep, r, st') ∧
          ep = false ∧ r = st.nodes.length ∧
          st'.nodes.length = st.nodes.length + 1 ∧
          getNode st' r =
            ⟨[(sIdx strP (tkTrans.sub.l + (kp.r - kp.l) + 1),
               ⟨⟨tkTrans.sub.ref_str, tkTrans.sub.l + (kp.r - kp.l) + 1,
                 tkTrans.sub.r⟩, tkTrans.tgt⟩)], none, false⟩ ∧
          gfind (getNode st' nId).g (sIdx w kp.l) =
            some ⟨⟨tkTrans.sub.ref_str, tkTrans.sub.l,
                   tkTrans.sub.l + (kp.r - kp.l)⟩, some r⟩ ∧
          (∀ c, c ≠ sIdx w kp.l →
            gfind (getNode st' nId).g c = gfind (getNode st nId).g c) ∧
          (getNode st' nId).suffix_link = (getNode st nId).suffix_link ∧
          (getNode st' nId).isLeaf = (getNode st nId).isLeaf ∧
          (∀ m, m < st.nodes.length → m ≠ nId →
            getNode st' m = getNode st m) ∧
          st'.haystack = st.haystack ∧ st'.last_index = st.last_index)) := by
  constructor
  · intro hkp
    simp only [test_and_split]
    rw [if_neg (by omega)]
  · intro tkTrans strP hd htk hhf
    constructor
    · intro heq
      simp only [test_and_split]
      rw [if_pos hd, htk, hhf]
      simp only [heq, if_true]
    · intro hne hlt
      have hlt' : nId <
          (pushNode st
            (⟨gIns [] (sIdx strP (tkTrans.sub.l + (kp.r - kp.l) + 1))
              ⟨⟨tkTrans.sub.ref_str, tkTrans.sub.l + (kp.r - kp.l) + 1,
                tkTrans.sub.r⟩, tkTrans.tgt⟩, none, false⟩ :
              Node C)).nodes.length := by
        rw [pushNode_len]; omega
      refine ⟨false, st.nodes.length,
        modifyG (pushNode st
          ⟨gIns [] (sIdx strP (tkTrans.sub.l + (kp.r - kp.l) + 1))
            ⟨⟨tkTrans.sub.ref_str, tkTrans.sub.l + (kp.r - kp.l) + 1,
              tkTrans.sub.r⟩, tkTrans.tgt⟩, none, false⟩) nId
          (fun g => gSet g (sIdx w kp.l)
            ⟨⟨tkTrans.sub.ref_str, tkTrans.sub.l,
              tkTrans.sub.l + (kp.r - kp.l)⟩, some st.nodes.length⟩),
        ?_, rfl, rfl, ?_, ?_, ?_, ?_, ?_, ?_, ?_, rfl, rfl⟩
      · simp only [test_and_split]
        rw [if_pos hd, htk, hhf]
        simp only [hne, if_false]
      · exact (modifyG_len).trans pushNode_len
      · exact (getNode_modifyG_ne (by omega)).trans getNode_pushNode_self
      · rw [getNode_modifyG_self hlt', getNode_pushNode_lt hlt]
        exact gfind_gSet_self _ _ _
      · intro c hc
        rw [getNode_modifyG_self hlt', getNode_pushNode_lt hlt]
        exact gfind_gSet_ne _ _ hc
      · rw [getNode_modifyG_self hlt', getNode_pushNode_lt hlt]
      · rw [getNode_modifyG_self hlt', getNode_pushNode_lt hlt]
      · intro m hm hmne
        exact (getNode_modifyG_ne hmne).trans (getNode_pushNode_lt hm)

/-- Claim C5, witness: the three cases of `test_and_split` exercised on the
tree holding `xx` (empty `kp` with and without a stored transition, a
matching non-empty `kp`, and a split). -/
theorem C5_witness :
    (test_and_split stXX (some rootId) ⟨1, 0, -1⟩ 1 ([1, 1] : List Nat) =
      some ((find_alpha_transition stXX rootId 1).tgt.isSome, rootId,
        stXX)) ∧
    (test_and_split stXX (some rootId) ⟨1, 0, 0⟩ 1 ([1, 1] : List Nat) =
      some (true, rootId, stXX)) ∧
    (∃ ep r st',
      test_and_split stXX (some rootId) ⟨1, 0, 0⟩ 2 ([1, 1] : List Nat) =
        some (ep, r, st') ∧
      ep = false ∧ r = stXX.nodes.length ∧
      st'.nodes.length = stXX.nodes.length + 1) := by
  refine ⟨(C5_theorem stXX rootId ⟨1, 0, -1⟩ 1 [1, 1]).1 (by decide),
    ?_, ?_⟩
  · exact ((C5_theorem stXX rootId ⟨1, 0, 0⟩ 1 [1, 1]).2
      (find_alpha_transition stXX rootId (sIdx [1, 1] 0)) [1, 1]
      (by decide) rfl (by decide)).1 (by decide)
  · obtain ⟨ep, r, st', h1, h2, h3, h4, -⟩ :=
      ((C5_theorem stXX rootId ⟨1, 0, 0⟩ 2 [1, 1]).2
        (find_alpha_transition stXX rootId (sIdx [1, 1] 0)) [1, 1]
        (by decide) rfl (by decide)).2 (by decide) (by decide)
    exact ⟨ep, r, st', h1, h2, h3, h4⟩

/-! ## Claim C6: canonize -/

lemma wSeg_empty (w : List C) {l r : Int} (h : r < l) : wSeg w l r = [] := by
  unfold wSeg
  rw [show (r + 1 - l).toNat = 0 by omega]
  rfl

lemma wSeg_append (w : List C) {a b c : Int} (h0 : 0 ≤ a) (h1 : a ≤ b)
    (h2 : b ≤ c) :
    wSeg w a (b - 1) ++ wSeg w b (c - 1) = wSeg w a (c - 1) := by
  unfold wSeg
  rw [show (b - 1 + 1 - a).toNat = (b - a).toNat by omega,
    show (c - 1 + 1 - b).toNat = (c - b).toNat by omega,
    show (c - 1 + 1 - a).toNat = (b - a).toNat + (c - b).toNat by omega,
    show b.toNat = a.toNat + (b - a).toNat by omega,
    ← List.drop_drop, ← List.take_add]

/-- A reference-point substring `w[l..r]` lies along an existing path below
node `s`: either it is empty, or it is strictly shorter than the stored
span of the edge for its first symbol (already canonical), or that edge's
stored span fits into the remaining length, its label resolves to exactly
the corresponding characters of `w`, and the rest lies below the edge's
target. -/
inductive CanonOK (st : STree C) (w : List C) (r : Int) : Nat → Int → Prop
  | stop {s : Nat} {l : Int} (h : r < l) : CanonOK st w r s l
  | canonical {s : Nat} {l : Int} (h1 : l ≤ r)
      (h2 : r - l <
        (find_alpha_transition st s (sIdx w l)).sub.r -
          (find_alpha_transition st s (sIdx w l)).sub.l) :
      CanonOK st w r s l
  | descend {s : Nat} {l : Int} {tr : transition C} {m : Nat}
      (h1 : l ≤ r)
      (htr : find_alpha_transition st s (sIdx w l) = tr)
      (htgt : tr.tgt = some m)
      (hmem : (sIdx w l, tr) ∈ (getNode st s).g)
      (hd0 : 0 ≤ tr.sub.r - tr.sub.l)
      (hdle : tr.sub.r - tr.sub.l ≤ r - l)
      (hlab : resolveSub st tr.sub = wSeg w l (l + (tr.sub.r - tr.sub.l)))
      (hrest : CanonOK st w r m (l + 1 + (tr.sub.r - tr.sub.l))) :
      CanonOK st w r s l

lemma canonizeAux_ok {st : STree C} {w : List C} {r : Int} :
    ∀ {s : Nat} {l : Int}, CanonOK st w r s l → 0 ≤ l → l ≤ r →
    ∀ (fuel : Nat), (r - l).toNat + 2 ≤ fuel →
    ∃ (s' : Nat) (l' : Int),
      canonizeAux st w fuel (some s) l r
          (find_alpha_transition st s (sIdx w l)) =
        some (some s', l') ∧
      l ≤ l' ∧ 0 ≤ l' ∧
      PathSpell st s (wSeg w l (l' - 1)) s' ∧
      (r < l' ∨ (l' ≤ r ∧ r - l' <
        (find_alpha_transition st s' (sIdx w l')).sub.r -
          (find_alpha_transition st s' (sIdx w l')).sub.l)) := by
  intro s l h
  induction h with
  | stop hrl => intro hl0 hlr; omega
  | canonical h1 h2 =>
    rename_i s l
    intro hl0 hlr fuel hfuel
    match fuel, hfuel with
    | fuel + 1, _ =>
      refine ⟨_, l, ?_, le_refl l, hl0, ?_, Or.inr ⟨h1, h2⟩⟩
      · rw [canonizeAux]
        rw [if_neg (by omega)]
      · rw [wSeg_empty w (by omega)]
        exact PathSpell.nil _
  | descend h1 htr htgt hmem hd0 hdle hlab hrest ih =>
    intro hl0 hlr fuel hfuel
    rename_i s l tr m
    match fuel, hfuel with
    | fuel + 1, hfuel =>
      rw [canonizeAux, htr, if_pos (by omega)]
      by_cases hlr' : l + 1 + (tr.sub.r - tr.sub.l) ≤ r
      · rw [if_pos hlr', htgt]
        obtain ⟨s', l'', heq, hle, hl0', hpath, hcond⟩ :=
          ih (by omega) hlr' fuel (by omega)
        refine ⟨s', l'', heq, by omega, hl0', ?_, hcond⟩
        have hseg : wSeg w l (l'' - 1) =
            resolveSub st tr.sub ++
              wSeg w (l + 1 + (tr.sub.r - tr.sub.l)) (l'' - 1) := by
          rw [hlab,
            show l + (tr.sub.r - tr.sub.l) =
              (l + 1 + (tr.sub.r - tr.sub.l)) - 1 by omega]
          exact (wSeg_append w hl0 (by omega) (by omega)).symm
        rw [hseg]
        exact PathSpell.cons hmem htgt hpath
      · -- the string end was passed: the code re-examines the stale
        -- transition once more and exits
        rw [if_neg hlr', htgt]
        match fuel, hfuel with
        | fuel + 1, _ =>
          rw [canonizeAux, if_neg (by omega)]
          refine ⟨m, l + 1 + (tr.sub.r - tr.sub.l), rfl, by omega, by omega,
            ?_, Or.inl (by omega)⟩
          have hseg : wSeg w l (l + 1 + (tr.sub.r - tr.sub.l) - 1) =
              resolveSub st tr.sub ++ ([] : List C) := by
            rw [hlab, List.append_nil]
            congr 1
            omega
          rw [hseg]
          exact PathSpell.cons hmem htgt (PathSpell.nil m)

/-- Claim C6: for a reference point `(s, kp)` whose substring lies along an
existing path below `s` (in the sense of `CanonOK`, which also demands the
resolvable labels match the substring), `canonize` terminates with `some`
result, the returned reference point denotes the same tree position (there
is a path of whole stored transitions from `s` to the returned node
spelling exactly the consumed front of the substring), and the result is
canonical: the remaining substring is empty, or strictly shorter than the
stored span of the outgoing edge for its first symbol from the returned
node. -/
theorem C6_theorem {st : STree C} {w : List C} {ref l r : Int} {s : Nat}
    (hok : CanonOK st w r s l) (hl0 : 0 ≤ l)
    (hw : hfind st.haystack ref = some w) :
    ∃ (s' : Nat) (l' : Int),
      canonize st (some s) ⟨ref, l, r⟩ = some (some s', l') ∧
      l ≤ l' ∧
      PathSpell st s (wSeg w l (l' - 1)) s' ∧
      (r < l' ∨ (l' ≤ r ∧ r - l' <
        (find_alpha_transition st s' (sIdx w l')).sub.r -
          (find_alpha_transition st s' (sIdx w l')).sub.l)) := by
  by_cases hrl : r < l
  · refine ⟨s, l, ?_, le_refl l, ?_, Or.inl hrl⟩
    · rw [canonize, if_pos hrl]
    · rw [wSeg_empty w (by omega)]
      exact PathSpell.nil _
  · obtain ⟨s', l', heq, hle, -, hpath, hcond⟩ :=
      canonizeAux_ok hok hl0 (by omega) ((r - l).toNat + 2) (le_refl _)
    refine ⟨s', l', ?_, hle, hpath, hcond⟩
    rw [canonize, if_neg hrl]
    simp only [hw]
    exact heq

/-- Claim C6, witness: in the tree holding `abac`, canonizing the point
`(root, chars 0..0 of string 1)` descends the root's `a`-edge to node 4 and
stops there with an empty remaining substring. -/
theorem C6_witness :
    ∃ (s' : Nat) (l' : Int),
      canonize stAbac (some rootId) ⟨1, 0, 0⟩ = some (some s', l') ∧
      (0 : Int) ≤ l' ∧
      PathSpell stAbac rootId (wSeg [3, 4, 3, 5] 0 (l' - 1)) s' ∧
      ((0 : Int) < l' ∨ (l' ≤ 0 ∧ 0 - l' <
        (find_alpha_transition stAbac s' (sIdx [3, 4, 3, 5] l')).sub.r -
          (find_alpha_transition stAbac s' (sIdx [3, 4, 3, 5] l')).sub.l)) := by
  have hok : CanonOK stAbac ([3, 4, 3, 5] : List Nat) 0 rootId 0 := by
    have htr0 : find_alpha_transition stAbac rootId
        (sIdx ([3, 4, 3, 5] : List Nat) 0) = ⟨⟨1, 0, 0⟩, some 4⟩ := by decide
    refine CanonOK.descend (by omega) htr0 rfl (by decide) (by decide)
      (by decide) (by decide) ?_
    exact CanonOK.stop (by decide)
  exact C6_theorem hok (by omega) (by decide)

/-! ## Claim C2: the failure condition, characterized -/

/-- The fast-forward walk runs out of the new string `s` strictly inside an
edge's stored span: from node `n` at position `k`, either the stored
transition for the next symbol has a span of at least the remaining length
of `s` (at least 1) and every in-range character of `s` matches the edge's
reference string, or a whole edge is consumed (every spanned character
matches and the string does not end within it) and the walk continues from
its target. -/
inductive RunsOut (st : STree C) (s : List C) : Nat → Int → Prop
  | inside {n : Nat} {k : Int} {tr : transition C} {m : Nat}
      (htr : find_alpha_transition st n (sIdx s k) = tr)
      (htgt : tr.tgt = some m)
      (hb1 : 1 ≤ tr.sub.r - tr.sub.l)
      (hb2 : (s.length : Int) - k ≤ tr.sub.r - tr.sub.l)
      (hcmp : ∀ j : Int, 1 ≤ j → k + j < (s.length : Int) →
        ∃ str, hfind st.haystack tr.sub.ref_str = some str ∧
          sIdx s (k + j) = sIdx str (tr.sub.l + j)) :
      RunsOut st s n k
  | step {n : Nat} {k : Int} {tr : transition C} {m : Nat}
      (htr : find_alpha_transition st n (sIdx s k) = tr)
      (htgt : tr.tgt = some m)
      (hcons : ∀ j : Int, 1 ≤ j → j ≤ tr.sub.r - tr.sub.l →
        k + j < (s.length : Int) ∧
        ∃ str, hfind st.haystack tr.sub.ref_str = some str ∧
          sIdx s (k + j) = sIdx str (tr.sub.l + j))
      (hrest : RunsOut st s m (k + max (tr.sub.r - tr.sub.l + 1) 1)) :
      RunsOut st s n k

lemma edgeScan_runout_of {s str : List C} {k subl bound : Int} :
    ∀ (fuel : Nat) (j : Int), 1 ≤ j → j ≤ bound →
    (s.length : Int) - k ≤ bound →
    ((s.length : Int) - k - j).toNat < fuel →
    (∀ j' : Int, j ≤ j' → k + j' < (s.length : Int) →
      sIdx s (k + j') = sIdx str (subl + j')) →
    edgeScan s (some str) k subl bound fuel j = ScanRes.runout := by
  intro fuel
  induction fuel with
  | zero => intro j h1 h2 h3 h4 h5; omega
  | succ fuel ih =>
    intro j h1 h2 h3 h4 h5
    simp only [edgeScan]
    rw [if_pos h2]
    by_cases hend : (s.length : Int) ≤ k + j
    · rw [if_pos hend]
    · rw [if_neg hend]
      rw [if_pos (h5 j (le_refl j) (by omega))]
      exact ih (j + 1) (by omega) (by omega) h3 (by omega)
        (fun j' hj' hlen => h5 j' (by omega) hlen)

lemma edgeScan_consumed_short {s : List C} {ostr : Option (List C)}
    {k subl bound : Int} {fuel : Nat} {j : Int} (h : bound < j) :
    edgeScan s ostr k subl bound (fuel + 1) j = ScanRes.consumed j := by
  simp only [edgeScan]
  rw [if_neg (by omega)]

lemma edgeScan_consumed_of {s str : List C} {k subl bound : Int} :
    ∀ (fuel : Nat) (j : Int), 1 ≤ j → j ≤ bound + 1 →
    (bound + 1 - j).toNat < fuel →
    (∀ j' : Int, j ≤ j' → j' ≤ bound →
      k + j' < (s.length : Int) ∧ sIdx s (k + j') = sIdx str (subl + j')) →
    edgeScan s (some str) k subl bound fuel j =
      ScanRes.consumed (bound + 1) := by
  intro fuel
  induction fuel with
  | zero => intro j h1 h2 h3 h4; omega
  | succ fuel ih =>
    intro j h1 h2 h3 h4
    by_cases hj : j ≤ bound
    · simp only [edgeScan]
      rw [if_pos hj]
      obtain ⟨hlen, hchar⟩ := h4 j (le_refl j) hj
      rw [if_neg (by omega), if_pos hchar]
      exact ih (j + 1) (by omega) (by omega) (by omega)
        (fun j' hj' hb => h4 j' (by omega) hb)
    · have hj1 : j = bound + 1 := by omega
      simp only [edgeScan]
      rw [if_neg (by omega), hj1]

lemma edgeScan_runout_inv {s : List C} {ostr : Option (List C)}
    {k subl bound : Int} :
    ∀ (fuel : Nat) (j : Int),
    edgeScan s ostr k subl bound fuel j = ScanRes.runout → 1 ≤ j →
    j ≤ bound ∧ (s.length : Int) - k ≤ bound ∧
    (∀ j' : Int, j ≤ j' → k + j' < (s.length : Int) →
      ∃ str, ostr = some str ∧ sIdx s (k + j') = sIdx str (subl + j')) := by
  intro fuel
  induction fuel with
  | zero => intro j h; simp [edgeScan] at h
  | succ fuel ih =>
    intro j h hj
    simp only [edgeScan] at h
    split at h
    · rename_i hjb
      split at h
      · rename_i hend
        exact ⟨hjb, by omega, fun j' hj' hlen => by omega⟩
      · rename_i hend
        split at h
        · simp at h
        · rename_i str
          split at h
          · rename_i hchar
            obtain ⟨h1, h2, h3⟩ := ih (j + 1) h (by omega)
            refine ⟨hjb, h2, ?_⟩
            intro j' hj' hlen
            rcases eq_or_lt_of_le hj' with rfl | hlt
            · exact ⟨str, rfl, hchar⟩
            · exact h3 j' (by omega) hlen
          · simp at h
    · simp at h

lemma edgeScan_consumed_inv {s : List C} {ostr : Option (List C)}
    {k subl bound : Int} :
    ∀ (fuel : Nat) (j : Int) (i : Int),
    edgeScan s ostr k subl bound fuel j = ScanRes.consumed i → 1 ≤ j →
    i = max (bound + 1) j ∧
    (∀ j' : Int, j ≤ j' → j' ≤ bound →
      k + j' < (s.length : Int) ∧
      ∃ str, ostr = some str ∧ sIdx s (k + j') = sIdx str (subl + j')) := by
  intro fuel
  induction fuel with
  | zero => intro j i h; simp [edgeScan] at h
  | succ fuel ih =>
    intro j i h hj
    simp only [edgeScan] at h
    split at h
    · rename_i hjb
      split at h
      · simp at h
      · rename_i hend
        split at h
        · simp at h
        · rename_i str
          split at h
          · rename_i hchar
            obtain ⟨h1, h2⟩ := ih (j + 1) i h (by omega)
            refine ⟨by omega, ?_⟩
            intro j' hj' hb
            rcases eq_or_lt_of_le hj' with rfl | hlt
            · exact ⟨by omega, str, rfl, hchar⟩
            · exact h2 j' (by omega) hb
          · simp at h
    · rename_i hjb
      simp only [ScanRes.consumed.injEq] at h
      subst h
      exact ⟨by omega, fun j' hj' hb => by omega⟩

lemma edgeScan_mismatch_inv {s : List C} {ostr : Option (List C)}
    {k subl bound : Int} :
    ∀ (fuel : Nat) (j : Int) (i : Int),
    edgeScan s ostr k subl bound fuel j = ScanRes.mismatch i →
    k + i < (s.length : Int) := by
  intro fuel
  induction fuel with
  | zero => intro j i h; simp [edgeScan] at h
  | succ fuel ih =>
    intro j i h
    simp only [edgeScan] at h
    split at h
    · split at h
      · simp at h
      · rename_i hend
        split at h
        · simp at h
        · split at h
          · exact ih (j + 1) i h
          · simp only [ScanRes.mismatch.injEq] at h
            subst h
            omega
    · simp at h

lemma gsn_max_to_runsout {st : STree C} {s : List C} :
    ∀ (fuel : Nat) (n : Nat) (k rl : Int) (v : Int) (n' : Nat) (rl' : Int),
    gsnLoop st s fuel n k rl = some (v, n', rl') → 0 ≤ k →
    max k (s.length : Int) + fuel < intMax →
    v = intMax → RunsOut st s n k := by
  intro fuel
  induction fuel with
  | zero => intro n k rl v n' rl' h; simp [gsnLoop] at h
  | succ fuel ih =>
    intro n k rl v n' rl' h hk hbound hv
    simp only [gsnLoop] at h
    split at h
    · simp only [Option.some.injEq, Prod.mk.injEq] at h
      omega
    · rename_i m htgt
      split at h
      · simp at h
      · -- runout
        rename_i hscan
        obtain ⟨hb1, hb2, hcmp⟩ := edgeScan_runout_inv _ 1 hscan (le_refl 1)
        exact RunsOut.inside rfl htgt hb1 (by omega)
          (fun j hj hlen => by
            obtain ⟨str, hstr, hc⟩ := hcmp j hj hlen
            exact ⟨str, hstr, hc⟩)
      · -- mismatch: the returned value is below the string length
        rename_i i hscan
        have := edgeScan_mismatch_inv _ 1 i hscan
        simp only [Option.some.injEq, Prod.mk.injEq] at h
        omega
      · -- consumed: recurse
        rename_i i hscan
        obtain ⟨hi, hcons⟩ := edgeScan_consumed_inv _ 1 i hscan (le_refl 1)
        have hk' : 0 ≤ k + i := by omega
        have hbound' : max (k + i) (s.length : Int) + fuel < intMax := by
          rcases le_or_lt ((find_alpha_transition st n (sIdx s k)).sub.r -
              (find_alpha_transition st n (sIdx s k)).sub.l) 0 with hb | hb
          · have : i = 1 := by omega
            omega
          · obtain ⟨hlen, -⟩ := hcons _ (le_refl 1)
              (by omega : (1 : Int) ≤ _)
            have hlast := (hcons ((find_alpha_transition st n
                (sIdx s k)).sub.r - (find_alpha_transition st n
                (sIdx s k)).sub.l) (by omega) (le_refl _)).1
            omega
        have hro := ih _ _ _ _ _ _ h hk' hbound' hv
        refine RunsOut.step rfl htgt
          (fun j hj hjb => (hcons j hj hjb).elim
            (fun hlen hex => ⟨hlen, hex⟩)) ?_
        rw [show k + max ((find_alpha_transition st n (sIdx s k)).sub.r -
            (find_alpha_transition st n (sIdx s k)).sub.l + 1) 1 = k + i by
          omega]
        exact hro

lemma runsout_to_gsn_max {st : STree C} {s : List C} :
    ∀ {n : Nat} {k : Int}, RunsOut st s n k → 0 ≤ k →
    ∀ (fuel : Nat) (rl : Int) (v : Int) (n' : Nat) (rl' : Int),
    gsnLoop st s fuel n k rl = some (v, n', rl') → v = intMax := by
  intro n k h
  induction h with
  | inside htr htgt hb1 hb2 hcmp =>
    rename_i n k tr m
    intro hk fuel rl v n' rl' h
    match fuel with
    | 0 => simp [gsnLoop] at h
    | fuel + 1 =>
      simp only [gsnLoop, htr, htgt] at h
      have hscan : edgeScan s (hfind st.haystack tr.sub.ref_str) k tr.sub.l
          (tr.sub.r - tr.sub.l) (s.length + 2) 1 = ScanRes.runout := by
        by_cases hend : (s.length : Int) ≤ k + 1
        · simp only [edgeScan]
          rw [if_pos (by omega), if_pos hend]
        · obtain ⟨str, hstr, -⟩ := hcmp 1 (le_refl 1) (by omega)
          rw [hstr]
          refine edgeScan_runout_of _ 1 (le_refl 1) (by omega) (by omega)
            (by omega) ?_
          intro j' hj' hlen
          obtain ⟨str', hstr', hc⟩ := hcmp j' hj' hlen
          rw [hstr] at hstr'
          cases hstr'
          exact hc
      rw [hscan] at h
      simp only [Option.some.injEq, Prod.mk.injEq] at h
      exact h.1.symm
  | step htr htgt hcons hrest ih =>
    rename_i n k tr m
    intro hk fuel rl v n' rl' h
    match fuel with
    | 0 => simp [gsnLoop] at h
    | fuel + 1 =>
      simp only [gsnLoop, htr, htgt] at h
      have hscan : edgeScan s (hfind st.haystack tr.sub.ref_str) k tr.sub.l
          (tr.sub.r - tr.sub.l) (s.length + 2) 1 =
          ScanRes.consumed (max (tr.sub.r - tr.sub.l + 1) 1) := by
        rcases le_or_lt (tr.sub.r - tr.sub.l) 0 with hb | hb
        · rw [show max (tr.sub.r - tr.sub.l + 1) 1 = 1 by omega]
          exact edgeScan_consumed_short (by omega)
        · obtain ⟨-, str, hstr, -⟩ := hcons 1 (le_refl 1) (by omega)
          rw [hstr]
          rw [show max (tr.sub.r - tr.sub.l + 1) 1 =
            tr.sub.r - tr.sub.l + 1 by omega]
          have hlast := (hcons (tr.sub.r - tr.sub.l) (by omega)
            (le_refl _)).1
          refine edgeScan_consumed_of _ 1 (le_refl 1) (by omega)
            (by omega) ?_
          intro j' hj' hjb
          obtain ⟨hlen, str', hstr', hc⟩ := hcons j' hj' hjb
          rw [hstr] at hstr'
          cases hstr'
          exact ⟨hlen, hc⟩
      rw [hscan] at h
      exact ih (by omega) fuel rl v n' rl' h

/-- Claim C2 (amended): for any crash-free `addString` call from a sane
state, the failure sentinel `-1` is returned if and only if the
fast-forward walk runs out of the new string strictly inside a stored edge
span (`RunsOut`, evaluated in the state with the new string registered as
id `last_index + 1`).  This - not "entirely subsumed" - is the exact
failure condition: subsumption whose endpoint falls exactly on a node (see
the counterexample) yields a fresh id instead.  The specification's own
scenario - insert `xx`, then `x` - does satisfy `RunsOut` and returns the
sentinel (see the witness). -/
theorem C2_theorem {st : STree C} {w : List C} {res : Int} {st' : STree C}
    (hge : 0 ≤ st.last_index)
    (hsize : (st.nodes.length : Int) + 2 * (w.length : Int) + 8 < intMax)
    (h : addString st w = some (res, st')) :
    (res = -1 ↔
      RunsOut (⟨st.nodes, hIns st.haystack (st.last_index + 1) w,
        st.last_index + 1⟩ : STree C) w rootId 0) := by
  simp only [addString] at h
  rcases hdep : deploy_suffixes
      (⟨st.nodes, hIns st.haystack (st.last_index + 1) w,
        st.last_index + 1⟩ : STree C) w (st.last_index + 1) with - | dres
  · rw [hdep] at h
    simp at h
  · obtain ⟨res0, st2⟩ := dres
    rw [hdep] at h
    have h2 : (if res0 < 0 then
        some (-1, (⟨st2.nodes, hErase st2.haystack (st.last_index + 1),
          st2.last_index - 1⟩ : STree C))
      else some (st.last_index + 1, st2)) = some (res, st') := h
    rw [deploy_suffixes] at hdep
    rcases hgsn : get_starting_node
        (⟨st.nodes, hIns st.haystack (st.last_index + 1) w,
          st.last_index + 1⟩ : STree C) w rootId 0 with - | gres
    · rw [hgsn] at hdep
      simp at hdep
    · obtain ⟨i, nd, l⟩ := gres
      rw [hgsn] at hdep
      have hdep2 : (if i = intMax then
          some (-1, (⟨st.nodes, hIns st.haystack (st.last_index + 1) w,
            st.last_index + 1⟩ : STree C))
        else deployLoop (st.last_index + 1) w (w.length + 2)
          (⟨st.nodes, hIns st.haystack (st.last_index + 1) w,
            st.last_index + 1⟩ : STree C) (some nd, l) i) =
          some (res0, st2) := hdep
      rw [get_starting_node] at hgsn
      by_cases hmax : i = intMax
      · rw [if_pos hmax] at hdep2
        simp only [Option.some.injEq, Prod.mk.injEq] at hdep2
        obtain ⟨hres0, -⟩ := hdep2
        constructor
        · intro _
          subst hmax
          refine gsn_max_to_runsout _ _ _ _ _ _ _ hgsn (le_refl 0) ?_ rfl
          simp only [max_def]
          split <;> push_cast <;> omega
        · intro _
          rw [if_pos (by omega : res0 < 0)] at h2
          simp only [Option.some.injEq, Prod.mk.injEq] at h2
          exact h2.1.symm
      · rw [if_neg hmax] at hdep2
        have hfr := deployLoop_frame hdep2
        constructor
        · intro hres
          rw [if_neg (by omega : ¬ res0 < 0)] at h2
          simp only [Option.some.injEq, Prod.mk.injEq] at h2
          omega
        · intro hro
          exact absurd (runsout_to_gsn_max hro (le_refl 0) _ _ _ _ _ hgsn)
            hmax

/-- Claim C2, witness: the `xx` then `x` scenario from the specification:
the second insertion returns `-1`, and the walk indeed runs out inside the
open `x`-edge. -/
theorem C2_witness :
    ∃ st', addString stXX ([1] : List Nat) = some (-1, st') ∧
      RunsOut (⟨stXX.nodes, hIns stXX.haystack (stXX.last_index + 1) [1],
        stXX.last_index + 1⟩ : STree Nat) [1] rootId 0 := by
  rcases hrun : addString stXX ([1] : List Nat) with - | p
  · exact absurd hrun (by decide)
  · obtain ⟨res, st'⟩ := p
    have hres : res = -1 := by
      have := congrArg (Option.map Prod.fst) hrun
      rw [show (addString stXX ([1] : List Nat)).map Prod.fst =
        some (-1) from by decide] at this
      simpa using this.symm
    subst hres
    refine ⟨st', rfl, ?_⟩
    exact (C2_theorem (by decide) (by decide) hrun).mp rfl

/-! ## Reachability, in-degrees and the well-formedness invariant -/

/-- Nodes reachable from the root along stored transitions. -/
inductive Reach (st : STree C) : Nat → Prop
  | root : Reach st rootId
  | step {a b : Nat} {c : C} {tr : transition C} :
      Reach st a → (c, tr) ∈ (getNode st a).g → tr.tgt = some b →
      Reach st b

/-- Number of transitions of one node targeting `m`. -/
def tgtCount (nd : Node C) (m : Nat) : Nat :=
  nd.g.countP (fun p => p.2.tgt = some m)

/-- Number of stored transitions in the whole arena targeting `m` (the
in-degree of `m`). -/
def countTgt (st : STree C) (m : Nat) : Nat :=
  (st.nodes.map (fun nd => tgtCount nd m)).sum

/-- The well-formedness invariant of every state the tree reaches. -/
structure WF (st : STree C) : Prop where
  size : 2 ≤ st.nodes.length
  lastNN : 0 ≤ st.last_index
  hay0 : hfind st.haystack 0 = none
  rootSL : (getNode st rootId).suffix_link = some sinkId
  sinkSL : (getNode st sinkId).suffix_link = some rootId
  sinkG : (getNode st sinkId).g = []
  noSinkLink : ∀ n, n < st.nodes.length → n ≠ rootId →
    (getNode st n).suffix_link ≠ some sinkId
  slReach : ∀ n, n < st.nodes.length → n ≠ rootId → ∀ x,
    (getNode st n).suffix_link = some x → Reach st x
  trOK : ∀ nd ∈ st.nodes, ∀ c (tr : transition C), (c, tr) ∈ nd.g →
    ∃ m, tr.tgt = some m ∧ 2 ≤ m ∧ m < st.nodes.length
  allReach : ∀ m, 2 ≤ m → m < st.nodes.length → Reach st m
  indeg : ∀ m, 2 ≤ m → m < st.nodes.length → countTgt st m = 1

lemma getNode_mem {st : STree C} {a : Nat} (h : a < st.nodes.length) :
    getNode st a ∈ st.nodes := by
  simp only [getNode, List.getD_eq_getElem?_getD]
  rw [List.getElem?_eq_getElem h]
  exact List.getElem_mem _

/-- `trOK` in arena-index form. -/
lemma WF.trOK' {st : STree C} (hwf : WF st) {a : Nat} {c : C}
    {tr : transition C} (hmem : (c, tr) ∈ (getNode st a).g) :
    ∃ m, tr.tgt = some m ∧ 2 ≤ m ∧ m < st.nodes.length := by
  by_cases ha : a < st.nodes.length
  · exact hwf.trOK _ (getNode_mem ha) c tr hmem
  · exfalso
    have : getNode st a = default := by
      simp only [getNode, List.getD_eq_getElem?_getD]
      rw [List.getElem?_eq_none (by omega)]
      rfl
    rw [this] at hmem
    simp [default] at hmem

lemma gfind_mem : ∀ {g : List (C × transition C)} {c : C}
    {tr : transition C}, gfind g c = some tr → (c, tr) ∈ g := by
  intro g
  induction g with
  | nil => intro c tr h; simp [gfind] at h
  | cons p g ih =>
    intro c tr h
    obtain ⟨c1, t1⟩ := p
    rw [gfind] at h
    split at h
    · rename_i hc
      simp only [Option.some.injEq] at h
      subst h
      subst hc
      exact List.mem_cons_self _ _
    · exact List.mem_cons_of_mem _ (ih h)

lemma reach_lt {st : STree C} (hwf : WF st) {n : Nat} (h : Reach st n) :
    n < st.nodes.length := by
  induction h with
  | root => show 0 < st.nodes.length; have := hwf.size; omega
  | step ha hmem htgt ih =>
    obtain ⟨m, hm, -, hlt⟩ := hwf.trOK' hmem
    rw [hm] at htgt
    injection htgt with hmn
    omega

lemma reach_ne_sink {st : STree C} (hwf : WF st) {n : Nat}
    (h : Reach st n) : n ≠ sinkId := by
  cases h with
  | root => decide
  | step ha hmem htgt =>
    obtain ⟨m, hm, h2, -⟩ := hwf.trOK' hmem
    rw [hm] at htgt
    injection htgt with hmn
    show n ≠ 1
    omega

/-- Any target `find_alpha_transition` can return, queried at a reachable
node or the sink, is itself reachable. -/
lemma find_tgt_reach {st : STree C} (hwf : WF st) {n : Nat} {c : C}
    {b : Nat} (hn : Reach st n ∨ n = sinkId)
    (h : (find_alpha_transition st n c).tgt = some b) : Reach st b := by
  rcases hn with hn | rfl
  · have hnsink := reach_ne_sink hwf hn
    rw [find_alpha_transition, if_neg hnsink] at h
    rcases hg : gfind (getNode st n).g c with - | tr
    · rw [hg] at h; simp at h
    · rw [hg] at h
      exact Reach.step hn (gfind_mem hg) h
  · rw [find_alpha_transition, if_pos rfl, hwf.sinkSL] at h
    simp only [Option.some.injEq] at h
    subst h
    exact Reach.root

lemma find_tgt_ne_sink {st : STree C} (hwf : WF st) {n : Nat} {c : C}
    {b : Nat} (h : (find_alpha_transition st n c).tgt = some b) :
    b ≠ sinkId := by
  rw [find_alpha_transition] at h
  split at h
  · rw [hwf.sinkSL] at h
    simp only [Option.some.injEq] at h
    subst h
    decide
  · rcases hg : gfind (getNode st n).g c with - | tr
    · rw [hg] at h; simp at h
    · rw [hg] at h
      obtain ⟨m, hm, h2, -⟩ := hwf.trOK' (gfind_mem hg)
      rw [hm] at h
      injection h with hmb
      show b ≠ 1
      omega

lemma Reach_congr {st st' : STree C} (h : st.nodes = st'.nodes) {n : Nat}
    (hr : Reach st n) : Reach st' n := by
  have hg : ∀ a, getNode st' a = getNode st a := by
    intro a; simp only [getNode, h]
  induction hr with
  | root => exact Reach.root
  | step ha hmem htgt ih =>
    exact Reach.step ih (by rw [hg]; exact hmem) htgt

/-- `setSL` changes no transition map. -/
lemma g_setSL (st : STree C) (n : Nat) (v : Option Nat) (a : Nat) :
    (getNode (setSL st n v) a).g = (getNode st a).g := by
  by_cases hn : n < st.nodes.length
  · by_cases ha : a = n
    · subst ha; rw [getNode_setSL_self hn]
    · rw [getNode_setSL_ne ha]
  · have : (setSL st n v).nodes = st.nodes := by
      simp only [setSL, modifyNode]
      exact List.set_eq_of_length_le (by omega)
    simp only [getNode, this]

lemma isLeaf_setSL (st : STree C) (n : Nat) (v : Option Nat) (a : Nat) :
    (getNode (setSL st n v) a).isLeaf = (getNode st a).isLeaf := by
  by_cases hn : n < st.nodes.length
  · by_cases ha : a = n
    · subst ha; rw [getNode_setSL_self hn]
    · rw [getNode_setSL_ne ha]
  · have : (setSL st n v).nodes = st.nodes := by
      simp only [setSL, modifyNode]
      exact List.set_eq_of_length_le (by omega)
    simp only [getNode, this]

lemma Reach_setSL {st : STree C} {n : Nat} {v : Option Nat} {m : Nat}
    (h : Reach st m) : Reach (setSL st n v) m := by
  induction h with
  | root => exact Reach.root
  | step ha hmem htgt ih =>
    exact Reach.step ih (by rw [g_setSL]; exact hmem) htgt

lemma mem_gIns {g : List (C × transition C)} {c' : C} {tr' : transition C}
    (c : C) (tr : transition C) (h : (c', tr') ∈ g) :
    (c', tr') ∈ gIns g c tr := by
  unfold gIns
  split
  · exact h
  · exact List.mem_append_left _ h

lemma mem_gIns_self {g : List (C × transition C)} {c : C}
    {tr : transition C} (h : gfind g c = none) : (c, tr) ∈ gIns g c tr := by
  unfold gIns
  rw [h]
  exact List.mem_append_right _ (List.mem_singleton.mpr rfl)

lemma mem_gIns_inv {g : List (C × transition C)} {c' : C}
    {tr' : transition C} {c : C} {tr : transition C}
    (h : (c', tr') ∈ gIns g c tr) :
    (c', tr') ∈ g ∨ (c' = c ∧ tr' = tr) := by
  unfold gIns at h
  split at h
  · exact Or.inl h
  · rcases List.mem_append.mp h with h | h
    · exact Or.inl h
    · right
      obtain ⟨h1, h2⟩ := Prod.mk.injEq .. ▸ List.mem_singleton.mp h
      exact ⟨h1, h2⟩

lemma mem_gSet_inv {g : List (C × transition C)} {c' : C}
    {tr' : transition C} {c : C} {tr : transition C} :
    (c', tr') ∈ gSet g c tr → (c' = c ∧ tr' = tr) ∨ (c', tr') ∈ g := by
  induction g with
  | nil =>
    intro h
    rw [gSet] at h
    obtain ⟨h1, h2⟩ := Prod.mk.injEq .. ▸ List.mem_singleton.mp h
    exact Or.inl ⟨h1, h2⟩
  | cons p g ih =>
    intro h
    obtain ⟨c1, t1⟩ := p
    rw [gSet] at h
    split at h
    · rcases List.mem_cons.mp h with h | h
      · obtain ⟨h1, h2⟩ := Prod.mk.injEq .. ▸ h
        exact Or.inl ⟨h1, h2⟩
      · exact Or.inr (List.mem_cons_of_mem _ h)
    · rcases List.mem_cons.mp h with h | h
      · exact Or.inr (h ▸ List.mem_cons_self _ _)
      · rcases ih h with h | h
        · exact Or.inl h
        · exact Or.inr (List.mem_cons_of_mem _ h)

/-- A member of `g` survives `gSet g c0 tr0` unless it is exactly the
first binding of `c0` (the one `gfind` returns). -/
lemma gSet_mem_cases {g : List (C × transition C)} {c' : C}
    {tr' : transition C} {c0 : C} {tr0 : transition C} (trN : transition C)
    (hf : gfind g c0 = some tr0) (h : (c', tr') ∈ g) :
    (c', tr') ∈ gSet g c0 trN ∨ (c' = c0 ∧ tr' = tr0) := by
  induction g with
  | nil => simp at h
  | cons p g ih =>
    obtain ⟨c1, t1⟩ := p
    rw [gfind] at hf
    rw [gSet]
    split
    · rename_i hc
      subst hc
      rw [if_pos rfl] at hf
      simp only [Option.some.injEq] at hf
      subst hf
      rcases List.mem_cons.mp h with h | h
      · obtain ⟨h1, h2⟩ := Prod.mk.injEq .. ▸ h
        exact Or.inr ⟨h1, h2⟩
      · exact Or.inl (List.mem_cons_of_mem _ h)
    · rename_i hc
      rw [if_neg hc] at hf
      rcases List.mem_cons.mp h with h | h
      · exact Or.inl (h ▸ List.mem_cons_self _ _)
      · rcases ih hf h with h | h
        · exact Or.inl (List.mem_cons_of_mem _ h)
        · exact Or.inr h

lemma gfind_append_single {g : List (C × transition C)} {c c' : C}
    {tr : transition C} (h : c' ≠ c) :
    gfind (g ++ [(c, tr)]) c' = gfind g c' := by
  induction g with
  | nil =>
    show gfind [(c, tr)] c' = none
    rw [gfind, if_neg (fun he => h he.symm)]
    rfl
  | cons p g ih =>
    obtain ⟨c1, t1⟩ := p
    show gfind ((c1, t1) :: (g ++ [(c, tr)])) c' = _
    rw [gfind, gfind]
    split
    · rfl
    · exact ih

lemma gfind_gIns_ne {g : List (C × transition C)} {c c' : C}
    {tr : transition C} (h : c' ≠ c) :
    gfind (gIns g c tr) c' = gfind g c' := by
  unfold gIns
  split
  · rfl
  · exact gfind_append_single h

/-! ### Counting lemmas for in-degrees -/

lemma countTgt_pushNode (st : STree C) (nd : Node C) (m : Nat) :
    countTgt (pushNode st nd) m = countTgt st m + tgtCount nd m := by
  simp [countTgt, pushNode]

lemma sum_map_set : ∀ (l : List (Node C)) (n : Nat) (f : Node C → Nat)
    (x : Node C), n < l.length →
    ((l.set n x).map f).sum + f (l.getD n default) = (l.map f).sum + f x := by
  intro l
  induction l with
  | nil => intro n f x h; simp at h
  | cons a l ih =>
    intro n f x h
    cases n with
    | zero =>
      simp only [List.set_cons_zero, List.map_cons, List.sum_cons,
        List.getD_cons_zero]
      omega
    | succ n =>
      simp only [List.set_cons_succ, List.map_cons, List.sum_cons,
        List.getD_cons_succ]
      have := ih n f x (by simpa using h)
      omega

lemma countTgt_modifyNode {st : STree C} {n : Nat} {f : Node C → Node C}
    (h : n < st.nodes.length) (m : Nat) :
    countTgt (modifyNode st n f) m + tgtCount (getNode st n) m =
      countTgt st m + tgtCount (f (getNode st n)) m := by
  simp only [countTgt, modifyNode, getNode]
  exact sum_map_set st.nodes n _ _ h

lemma countTgt_oob {st : STree C} (hwf : WF st) {m : Nat}
    (h : st.nodes.length ≤ m) : countTgt st m = 0 := by
  rw [countTgt]
  rw [List.sum_eq_zero]
  intro x hx
  rw [List.mem_map] at hx
  obtain ⟨nd, hnd, rfl⟩ := hx
  rw [tgtCount, List.countP_eq_zero]
  intro p hp
  obtain ⟨m', hm', -, hlt⟩ := hwf.trOK nd hnd p.1 p.2 (by simpa using hp)
  simp only [hm', Option.some.injEq, decide_eq_true_eq]
  omega

lemma tgtCount_gIns_new {nd : Node C} {c : C} {tr : transition C}
    (h : gfind nd.g c = none) (m : Nat) :
    tgtCount ⟨gIns nd.g c tr, nd.suffix_link, nd.isLeaf⟩ m =
      tgtCount nd m + (if tr.tgt = some m then 1 else 0) := by
  simp only [tgtCount, gIns, h, List.countP_append, List.countP_singleton]
  by_cases hd : tr.tgt = some m
  · simp [hd]
  · simp [hd]

lemma countP_gSet {g : List (C × transition C)} {c : C}
    {tr0 : transition C} (trN : transition C) (p : C × transition C → Bool)
    (hf : gfind g c = some tr0) :
    (gSet g c trN).countP p + (if p (c, tr0) then 1 else 0) =
      g.countP p + (if p (c, trN) then 1 else 0) := by
  induction g with
  | nil => simp [gfind] at hf
  | cons q g ih =>
    obtain ⟨c1, t1⟩ := q
    rw [gfind] at hf
    rw [gSet]
    split
    · rename_i hc
      subst hc
      rw [if_pos rfl] at hf
      simp only [Option.some.injEq] at hf
      subst hf
      rw [List.countP_cons, List.countP_cons]
      split <;> split <;> simp_all
    · rename_i hc
      rw [if_neg hc] at hf
      rw [List.countP_cons, List.countP_cons]
      have := ih hf
      omega

/-! ### The initial state is well-formed -/

lemma WF_initState : WF (initState (C := C)) := by
  refine ⟨le_refl 2, le_refl 0, rfl, rfl, rfl, rfl, ?_, ?_, ?_, ?_, ?_⟩
  · intro n h1 h2
    have h1' : n < 2 := h1
    have h2' : n ≠ 0 := h2
    have hn : n = 1 := by omega
    subst hn
    intro hc
    have hsl : (getNode (initState (C := C)) 1).suffix_link =
        some rootId := rfl
    rw [hsl] at hc
    simp only [Option.some.injEq] at hc
    exact absurd hc (by decide)
  · intro n h1 h2 x hx
    have h1' : n < 2 := h1
    have h2' : n ≠ 0 := h2
    have hn : n = 1 := by omega
    subst hn
    have hsl : (getNode (initState (C := C)) 1).suffix_link =
        some rootId := rfl
    rw [hsl] at hx
    simp only [Option.some.injEq] at hx
    subst hx
    exact Reach.root
  · intro nd hnd c tr hmem
    simp only [initState, List.mem_cons, List.not_mem_nil, or_false] at hnd
    rcases hnd with rfl | rfl <;> simp at hmem
  · intro m h1 h2
    have : m < 2 := h2
    omega
  · intro m h1 h2
    have : m < 2 := h2
    omega

/-! ### What test_and_split can do, given a registry with no id 0 -/

lemma test_and_split_cases {st : STree C} {n : Nat} {kp : mapped_substring}
    {t : C} {w : List C} {ep : Bool} {r : Nat} {st' : STree C}
    (hay0 : hfind st.haystack 0 = none)
    (h : test_and_split st (some n) kp t w = some (ep, r, st')) :
    (st' = st ∧ r = n ∧
      (ep = true ∨ (ep = false ∧ kp.r < kp.l ∧
        (find_alpha_transition st n t).tgt = none))) ∨
    (ep = false ∧ 0 ≤ kp.r - kp.l ∧ n ≠ sinkId ∧ n < st.nodes.length ∧
      r = st.nodes.length ∧
      ∃ (tr : transition C) (strP : List C),
        gfind (getNode st n).g (sIdx w kp.l) = some tr ∧
        hfind st.haystack tr.sub.ref_str = some strP ∧
        ¬ sIdx strP (tr.sub.l + (kp.r - kp.l) + 1) = t ∧
        st' = modifyG (pushNode st
          ⟨[(sIdx strP (tr.sub.l + (kp.r - kp.l) + 1),
             ⟨⟨tr.sub.ref_str, tr.sub.l + (kp.r - kp.l) + 1, tr.sub.r⟩,
               tr.tgt⟩)], none, false⟩) n
          (fun g => gSet g (sIdx w kp.l)
            ⟨⟨tr.sub.ref_str, tr.sub.l, tr.sub.l + (kp.r - kp.l)⟩,
              some st.nodes.length⟩)) := by
  simp only [test_and_split] at h
  split at h
  · rename_i hd
    split at h
    · simp at h
    · rename_i strP heq
      have hsink : n ≠ sinkId := by
        intro hn
        subst hn
        rw [show find_alpha_transition st sinkId (sIdx w kp.l) =
            ⟨⟨0, 0, 0⟩, (getNode st sinkId).suffix_link⟩ from by
          rw [find_alpha_transition, if_pos rfl]] at heq
        rw [hay0] at heq
        simp at heq
      rcases hg : gfind (getNode st n).g (sIdx w kp.l) with - | tr
      · exfalso
        rw [show find_alpha_transition st n (sIdx w kp.l) =
            ⟨⟨0, 0, -1⟩, none⟩ from by
          rw [find_alpha_transition, if_neg hsink, hg]] at heq
        rw [hay0] at heq
        simp at heq
      · have hfe : find_alpha_transition st n (sIdx w kp.l) = tr := by
          rw [find_alpha_transition, if_neg hsink, hg]
        have hlt : n < st.nodes.length := by
          by_contra hge
          have : getNode st n = default := by
            simp only [getNode, List.getD_eq_getElem?_getD]
            rw [List.getElem?_eq_none (by omega)]
            rfl
          rw [this] at hg
          simp [default, gfind] at hg
        rw [hfe] at heq h
        split at h
        · rename_i hchar
          simp only [Option.some.injEq, Prod.mk.injEq] at h
          obtain ⟨h1, h2, h3⟩ := h
          exact Or.inl ⟨h3.symm, h2.symm, Or.inl h1.symm⟩
        · rename_i hchar
          simp only [Option.some.injEq, Prod.mk.injEq] at h
          obtain ⟨h1, h2, h3⟩ := h
          refine Or.inr ⟨h1.symm, hd, hsink, hlt, h2.symm,
            tr, strP, rfl, heq, hchar, ?_⟩
          rw [← h3]
          rfl
  · rename_i hd
    simp only [Option.some.injEq, Prod.mk.injEq] at h
    obtain ⟨h1, h2, h3⟩ := h
    rcases hb : (find_alpha_transition st n t).tgt.isSome with - | -
    · rw [hb] at h1
      refine Or.inl ⟨h3.symm, h2.symm, Or.inr ⟨h1.symm, by omega, ?_⟩⟩
      exact Option.not_isSome_iff_eq_none.mp (by simp [hb])
    · rw [hb] at h1
      exact Or.inl ⟨h3.symm, h2.symm, Or.inl h1.symm⟩

/-! ### More counting and membership helpers -/

lemma mem_gSet_self (g : List (C × transition C)) (c : C)
    (v : transition C) : (c, v) ∈ gSet g c v := by
  induction g with
  | nil => rw [gSet]; exact List.mem_singleton.mpr rfl
  | cons p g ih =>
    obtain ⟨c1, t1⟩ := p
    rw [gSet]
    split
    · exact List.mem_cons_self _ _
    · exact List.mem_cons_of_mem _ ih

lemma tgtCount_oob_node {st : STree C} (hwf : WF st) {nd : Node C}
    (hnd : nd ∈ st.nodes) {m : Nat} (h : st.nodes.length ≤ m) :
    tgtCount nd m = 0 := by
  rw [tgtCount, List.countP_eq_zero]
  intro p hp
  obtain ⟨m', hm', -, hlt⟩ := hwf.trOK nd hnd p.1 p.2 (by simpa using hp)
  simp only [hm', Option.some.injEq, decide_eq_true_eq]
  omega

lemma countTgt_setSL {st : STree C} {n : Nat} {v : Option Nat}
    (h : n < st.nodes.length) (m : Nat) :
    countTgt (setSL st n v) m = countTgt st m := by
  have h2 := countTgt_modifyNode (f := fun nd => { nd with suffix_link := v })
    h m
  simp only [tgtCount] at h2
  rw [setSL]
  omega

lemma count_map_tgt (g : List (C × transition C)) (m : Nat) :
    (g.map (fun p => p.2.tgt)).count (some m) =
      g.countP (fun p => p.2.tgt = some m) := by
  rw [List.count_eq_countP, List.countP_map]
  refine List.countP_congr ?_
  intro p hp
  simp [Function.comp]

lemma list_sum_map_getD (l : List (Node C)) (f : Node C → Nat) :
    (l.map f).sum =
      ∑ i in Finset.range l.length, f (l.getD i default) := by
  induction l with
  | nil => simp
  | cons a l ih =>
    rw [List.map_cons, List.sum_cons, List.length_cons,
      Finset.sum_range_succ', ih]
    simp only [List.getD_cons_succ, List.getD_cons_zero]
    omega

lemma countTgt_eq_rangeSum (st : STree C) (m : Nat) :
    countTgt st m =
      ∑ i in Finset.range st.nodes.length, tgtCount (getNode st i) m := by
  rw [countTgt, list_sum_map_getD]
  rfl

lemma edges_eq_rangeSum (st : STree C) :
    (st.nodes.map (fun nd => nd.g.length)).sum =
      ∑ i in Finset.range st.nodes.length, (getNode st i).g.length := by
  rw [list_sum_map_getD]
  rfl

lemma sum_tgt_nodup_le {st : STree C} {S : List Nat} (hnd : S.Nodup)
    (hb : ∀ q ∈ S, q < st.nodes.length) (m : Nat) :
    (S.map (fun q => tgtCount (getNode st q) m)).sum ≤ countTgt st m := by
  rw [countTgt_eq_rangeSum]
  rw [← List.sum_toFinset _ hnd]
  refine Finset.sum_le_sum_of_subset ?_
  intro q hq
  rw [List.mem_toFinset] at hq
  rw [Finset.mem_range]
  exact hb q hq

lemma mem_getNode {st : STree C} {nd : Node C} (h : nd ∈ st.nodes) :
    ∃ i, i < st.nodes.length ∧ getNode st i = nd := by
  obtain ⟨i, hi, hget⟩ := List.getElem_of_mem h
  refine ⟨i, hi, ?_⟩
  simp only [getNode, List.getD_eq_getElem?_getD]
  rw [List.getElem?_eq_getElem hi]
  exact hget

lemma countTgt_modifyG {st : STree C} {n : Nat}
    {f : List (C × transition C) → List (C × transition C)}
    (h : n < st.nodes.length) (m : Nat) :
    countTgt (modifyG st n f) m +
      ((getNode st n).g.countP (fun p => p.2.tgt = some m)) =
    countTgt st m +
      ((f (getNode st n).g).countP (fun p => p.2.tgt = some m)) := by
  have h2 := countTgt_modifyNode (f := fun nd => { nd with g := f nd.g }) h m
  simp only [tgtCount] at h2
  exact h2

lemma countP_gSet_tgt : ∀ {g : List (C × transition C)} {c : C}
    {tr0 : transition C} (trN : transition C) (m : Nat),
    gfind g c = some tr0 →
    (gSet g c trN).countP (fun p => p.2.tgt = some m) +
      (if tr0.tgt = some m then 1 else 0) =
    g.countP (fun p => p.2.tgt = some m) +
      (if trN.tgt = some m then 1 else 0) := by
  intro g
  induction g with
  | nil => intro c tr0 trN m hf; simp [gfind] at hf
  | cons q g ih =>
    intro c tr0 trN m hf
    obtain ⟨c1, t1⟩ := q
    rw [gfind] at hf
    rw [gSet]
    split
    · rename_i hc
      subst hc
      rw [if_pos rfl] at hf
      simp only [Option.some.injEq] at hf
      subst hf
      rw [List.countP_cons, List.countP_cons]
      by_cases h1 : trN.tgt = some m <;> by_cases h2 : t1.tgt = some m <;>
        simp [h1, h2]
    · rename_i hc
      rw [if_neg hc] at hf
      rw [List.countP_cons, List.countP_cons]
      have := ih trN m hf
      omega

/-! ### The state produced by an edge split -/

/-- The state `test_and_split` builds in its split branch: push the new
internal node carrying the tail of the edge, then shorten the stored edge
of `n` to target it. -/
def splitSt (st : STree C) (n : Nat) (tk c2 : C) (subN subT : mapped_substring)
    (o : Option Nat) : STree C :=
  modifyG (pushNode st ⟨[(c2, ⟨subT, o⟩)], none, false⟩) n
    (fun g => gSet g tk ⟨subN, some st.nodes.length⟩)

lemma splitSt_len (st : STree C) (n : Nat) (tk c2 : C)
    (subN subT : mapped_substring) (o : Option Nat) :
    (splitSt st n tk c2 subN subT o).nodes.length = st.nodes.length + 1 := by
  simp only [splitSt]
  rw [modifyG_len, pushNode_len]

lemma splitSt_hay (st : STree C) (n : Nat) (tk c2 : C)
    (subN subT : mapped_substring) (o : Option Nat) :
    (splitSt st n tk c2 subN subT o).haystack = st.haystack := rfl

lemma splitSt_last (st : STree C) (n : Nat) (tk c2 : C)
    (subN subT : mapped_substring) (o : Option Nat) :
    (splitSt st n tk c2 subN subT o).last_index = st.last_index := rfl

lemma getNode_splitSt_self {st : STree C} {n : Nat} (hlt : n < st.nodes.length)
    (tk c2 : C) (subN subT : mapped_substring) (o : Option Nat) :
    getNode (splitSt st n tk c2 subN subT o) n =
      ⟨gSet (getNode st n).g tk ⟨subN, some st.nodes.length⟩,
       (getNode st n).suffix_link, (getNode st n).isLeaf⟩ := by
  simp only [splitSt]
  rw [getNode_modifyG_self (by rw [pushNode_len]; omega),
    getNode_pushNode_lt hlt]

lemma getNode_splitSt_new {st : STree C} {n : Nat} (hlt : n < st.nodes.length)
    (tk c2 : C) (subN subT : mapped_substring) (o : Option Nat) :
    getNode (splitSt st n tk c2 subN subT o) st.nodes.length =
      ⟨[(c2, ⟨subT, o⟩)], none, false⟩ := by
  simp only [splitSt]
  rw [getNode_modifyG_ne (by omega), getNode_pushNode_self]

lemma getNode_splitSt_other {st : STree C} {n a : Nat} (ha : a ≠ n)
    (ha2 : a < st.nodes.length) (tk c2 : C) (subN subT : mapped_substring)
    (o : Option Nat) :
    getNode (splitSt st n tk c2 subN subT o) a = getNode st a := by
  simp only [splitSt]
  rw [getNode_modifyG_ne ha, getNode_pushNode_lt ha2]

lemma Reach_splitSt {st : STree C} (hwf : WF st) {n : Nat} {tk : C}
    {tr0 : transition C} (hg : gfind (getNode st n).g tk = some tr0)
    (c2 : C) (subN subT : mapped_substring) {m : Nat} (hm : Reach st m) :
    Reach (splitSt st n tk c2 subN subT tr0.tgt) m := by
  induction hm with
  | root => exact Reach.root
  | step ha hmem htgt ih =>
    rename_i a b c tr
    have halt : a < st.nodes.length := reach_lt hwf ha
    by_cases han : a = n
    · subst han
      rcases gSet_mem_cases ⟨subN, some st.nodes.length⟩ hg hmem
        with hin | ⟨hc, htr⟩
      · have hin' : (c, tr) ∈
            (getNode (splitSt st a tk c2 subN subT tr0.tgt) a).g := by
          rw [getNode_splitSt_self halt]
          exact hin
        exact Reach.step ih hin' htgt
      · have htgt' : tr0.tgt = some b := by rw [← htr]; exact htgt
        have hmemN : (tk, (⟨subN, some st.nodes.length⟩ : transition C)) ∈
            (getNode (splitSt st a tk c2 subN subT tr0.tgt) a).g := by
          rw [getNode_splitSt_self halt]
          exact mem_gSet_self _ _ _
        have hmid := Reach.step ih hmemN rfl
        have hmem2 : (c2, (⟨subT, tr0.tgt⟩ : transition C)) ∈
            (getNode (splitSt st a tk c2 subN subT tr0.tgt)
              st.nodes.length).g := by
          rw [getNode_splitSt_new halt]
          exact List.mem_singleton.mpr rfl
        exact Reach.step hmid hmem2 htgt'
    · have hmem' : (c, tr) ∈
          (getNode (splitSt st n tk c2 subN subT tr0.tgt) a).g := by
        rw [getNode_splitSt_other han halt]
        exact hmem
      exact Reach.step ih hmem' htgt

lemma WF_splitSt {st : STree C} (hwf : WF st) {n : Nat} (hn : Reach st n)
    {tk : C} {tr0 : transition C}
    (hg : gfind (getNode st n).g tk = some tr0)
    (c2 : C) (subN subT : mapped_substring) :
    WF (splitSt st n tk c2 subN subT tr0.tgt) ∧
    Reach (splitSt st n tk c2 subN subT tr0.tgt) st.nodes.length := by
  have hlt : n < st.nodes.length := reach_lt hwf hn
  have hns : n ≠ sinkId := reach_ne_sink hwf hn
  have hsize2 : 2 ≤ st.nodes.length := hwf.size
  obtain ⟨m0, hm0, hm02, hm0lt⟩ := hwf.trOK' (gfind_mem hg)
  have hlen : (splitSt st n tk c2 subN subT tr0.tgt).nodes.length =
      st.nodes.length + 1 := splitSt_len st n tk c2 subN subT _
  have hsl : ∀ a, a < st.nodes.length →
      (getNode (splitSt st n tk c2 subN subT tr0.tgt) a).suffix_link =
      (getNode st a).suffix_link := by
    intro a ha
    by_cases han : a = n
    · subst han; rw [getNode_splitSt_self ha]
    · rw [getNode_splitSt_other han ha]
  have hslnew : (getNode (splitSt st n tk c2 subN subT tr0.tgt)
      st.nodes.length).suffix_link = none := by
    rw [getNode_splitSt_new hlt]
  have hmono : ∀ m, Reach st m →
      Reach (splitSt st n tk c2 subN subT tr0.tgt) m :=
    fun m hm => Reach_splitSt hwf hg c2 subN subT hm
  have hreachN : Reach (splitSt st n tk c2 subN subT tr0.tgt)
      st.nodes.length := by
    have hmemN : (tk, (⟨subN, some st.nodes.length⟩ : transition C)) ∈
        (getNode (splitSt st n tk c2 subN subT tr0.tgt) n).g := by
      rw [getNode_splitSt_self hlt]
      exact mem_gSet_self _ _ _
    exact Reach.step (hmono n hn) hmemN rfl
  refine ⟨⟨?_, ?_, ?_, ?_, ?_, ?_, ?_, ?_, ?_, ?_, ?_⟩, hreachN⟩
  · rw [hlen]; omega
  · rw [splitSt_last]; exact hwf.lastNN
  · rw [splitSt_hay]; exact hwf.hay0
  · rw [hsl rootId (by show 0 < st.nodes.length; omega)]; exact hwf.rootSL
  · rw [hsl sinkId (by show 1 < st.nodes.length; omega)]; exact hwf.sinkSL
  · have h1 : sinkId ≠ n := fun he => hns he.symm
    rw [getNode_splitSt_other h1 (by show 1 < st.nodes.length; omega)]
    exact hwf.sinkG
  · intro a ha har
    rw [hlen] at ha
    by_cases haL : a = st.nodes.length
    · subst haL
      rw [hslnew]
      exact fun hc => by simp at hc
    · rw [hsl a (by omega)]
      exact hwf.noSinkLink a (by omega) har
  · intro a ha har x hx
    rw [hlen] at ha
    by_cases haL : a = st.nodes.length
    · subst haL; rw [hslnew] at hx; simp at hx
    · rw [hsl a (by omega)] at hx
      exact hmono x (hwf.slReach a (by omega) har x hx)
  · intro nd hnd c tr hmem
    obtain ⟨i, hi, hgi⟩ := mem_getNode hnd
    rw [hlen] at hi
    subst hgi
    by_cases hiL : i = st.nodes.length
    · subst hiL
      rw [getNode_splitSt_new hlt] at hmem
      rw [List.mem_singleton] at hmem
      obtain ⟨h1, h2⟩ := Prod.mk.injEq .. ▸ hmem
      subst h2
      exact ⟨m0, hm0, hm02, by rw [hlen]; omega⟩
    · by_cases hin : i = n
      · subst hin
        rw [getNode_splitSt_self hlt] at hmem
        rcases mem_gSet_inv hmem with ⟨h1, h2⟩ | hmem
        · subst h2
          exact ⟨st.nodes.length, rfl, by omega, by rw [hlen]; omega⟩
        · obtain ⟨m, hm, hm2, hmlt⟩ := hwf.trOK' hmem
          exact ⟨m, hm, hm2, by rw [hlen]; omega⟩
      · rw [getNode_splitSt_other hin (by omega)] at hmem
        obtain ⟨m, hm, hm2, hmlt⟩ := hwf.trOK' hmem
        exact ⟨m, hm, hm2, by rw [hlen]; omega⟩
  · intro m hm2 hmlt
    rw [hlen] at hmlt
    by_cases hmL : m = st.nodes.length
    · subst hmL; exact hreachN
    · exact hmono m (hwf.allReach m hm2 (by omega))
  · intro m hm2 hmlt
    rw [hlen] at hmlt
    have hpush : n < (pushNode st
        (⟨[(c2, ⟨subT, tr0.tgt⟩)], none, false⟩ : Node C)).nodes.length := by
      rw [pushNode_len]; omega
    have hmod := countTgt_modifyG
      (f := fun g => gSet g tk (⟨subN, some st.nodes.length⟩ : transition C))
      hpush m
    rw [getNode_pushNode_lt hlt] at hmod
    have hstc : countTgt (splitSt st n tk c2 subN subT tr0.tgt) m =
        countTgt (modifyG (pushNode st
          (⟨[(c2, ⟨subT, tr0.tgt⟩)], none, false⟩ : Node C)) n
          (fun g => gSet g tk
            (⟨subN, some st.nodes.length⟩ : transition C))) m := rfl
    have hpushc := countTgt_pushNode st
      (⟨[(c2, ⟨subT, tr0.tgt⟩)], none, false⟩ : Node C) m
    have hnew : tgtCount (⟨[(c2, ⟨subT, tr0.tgt⟩)], none, false⟩ : Node C) m =
        (if tr0.tgt = some m then 1 else 0) := by
      rw [tgtCount, List.countP_singleton]
      by_cases hd : tr0.tgt = some m
      · simp [hd]
      · simp [hd]
    have hset0 := countP_gSet_tgt
      (⟨subN, some st.nodes.length⟩ : transition C) m hg
    have hset : (gSet (getNode st n).g tk
          (⟨subN, some st.nodes.length⟩ : transition C)).countP
          (fun p => p.2.tgt = some m) +
        (if tr0.tgt = some m then 1 else 0) =
        (getNode st n).g.countP (fun p => p.2.tgt = some m) +
        (if (some st.nodes.length : Option Nat) = some m then 1 else 0) :=
      hset0
    by_cases hmL : m = st.nodes.length
    · subst hmL
      have h0 : countTgt st st.nodes.length = 0 := countTgt_oob hwf (by omega)
      have hvt : (if (some st.nodes.length : Option Nat) =
          some st.nodes.length then 1 else 0) = 1 := by simp
      have hbt : (if tr0.tgt = some st.nodes.length then 1 else 0) = 0 := by
        rw [hm0, if_neg (by intro hc; injection hc with hc; omega)]
      rw [hvt] at hset
      rw [hbt] at hnew hset
      rw [hstc]
      omega
    · have h1 : countTgt st m = 1 := hwf.indeg m hm2 (by omega)
      have hvt : (if (some st.nodes.length : Option Nat) = some m
          then 1 else 0) = 0 := by
        rw [if_neg (by intro hc; injection hc with hc; omega)]
      rw [hvt] at hset
      rw [hstc]
      omega

/-! ### The state produced by attaching a fresh leaf -/

/-- The state the `update` loop body builds: push a fresh leaf, then add an
open edge from `r` to it (insert-if-absent; in well-formed runs `r` has no
transition for the inserted symbol, so the insertion takes place). -/
def leafSt (st : STree C) (r : Nat) (c : C) (sub : mapped_substring) :
    STree C :=
  modifyG (pushNode st ⟨[], none, true⟩) r
    (fun g => gIns g c ⟨sub, some st.nodes.length⟩)

lemma leafSt_len (st : STree C) (r : Nat) (c : C) (sub : mapped_substring) :
    (leafSt st r c sub).nodes.length = st.nodes.length + 1 := by
  simp only [leafSt]
  rw [modifyG_len, pushNode_len]

lemma leafSt_hay (st : STree C) (r : Nat) (c : C) (sub : mapped_substring) :
    (leafSt st r c sub).haystack = st.haystack := rfl

lemma leafSt_last (st : STree C) (r : Nat) (c : C) (sub : mapped_substring) :
    (leafSt st r c sub).last_index = st.last_index := rfl

lemma getNode_leafSt_self {st : STree C} {r : Nat} (hlt : r < st.nodes.length)
    (c : C) (sub : mapped_substring) :
    getNode (leafSt st r c sub) r =
      ⟨gIns (getNode st r).g c ⟨sub, some st.nodes.length⟩,
       (getNode st r).suffix_link, (getNode st r).isLeaf⟩ := by
  simp only [leafSt]
  rw [getNode_modifyG_self (by rw [pushNode_len]; omega),
    getNode_pushNode_lt hlt]

lemma getNode_leafSt_new {st : STree C} {r : Nat} (hlt : r < st.nodes.length)
    (c : C) (sub : mapped_substring) :
    getNode (leafSt st r c sub) st.nodes.length = ⟨[], none, true⟩ := by
  simp only [leafSt]
  rw [getNode_modifyG_ne (by omega), getNode_pushNode_self]

lemma getNode_leafSt_other {st : STree C} {r a : Nat} (ha : a ≠ r)
    (ha2 : a < st.nodes.length) (c : C) (sub : mapped_substring) :
    getNode (leafSt st r c sub) a = getNode st a := by
  simp only [leafSt]
  rw [getNode_modifyG_ne ha, getNode_pushNode_lt ha2]

lemma Reach_leafSt {st : STree C} (hwf : WF st) {r : Nat}
    (hrlt : r < st.nodes.length) (c : C) (sub : mapped_substring) {m : Nat}
    (hm : Reach st m) : Reach (leafSt st r c sub) m := by
  induction hm with
  | root => exact Reach.root
  | step ha hmem htgt ih =>
    rename_i a b c' tr
    have halt : a < st.nodes.length := reach_lt hwf ha
    by_cases har : a = r
    · subst har
      have hmem' : (c', tr) ∈ (getNode (leafSt st a c sub) a).g := by
        rw [getNode_leafSt_self halt]
        exact mem_gIns _ _ hmem
      exact Reach.step ih hmem' htgt
    · have hmem' : (c', tr) ∈ (getNode (leafSt st r c sub) a).g := by
        rw [getNode_leafSt_other har halt]
        exact hmem
      exact Reach.step ih hmem' htgt

lemma WF_leafSt {st : STree C} (hwf : WF st) {r : Nat} (hr : Reach st r)
    {c : C} (hgf : gfind (getNode st r).g c = none)
    (sub : mapped_substring) : WF (leafSt st r c sub) := by
  have hlt : r < st.nodes.length := reach_lt hwf hr
  have hns : r ≠ sinkId := reach_ne_sink hwf hr
  have hsize2 : 2 ≤ st.nodes.length := hwf.size
  have hlen : (leafSt st r c sub).nodes.length = st.nodes.length + 1 :=
    leafSt_len st r c sub
  have hsl : ∀ a, a < st.nodes.length →
      (getNode (leafSt st r c sub) a).suffix_link =
      (getNode st a).suffix_link := by
    intro a ha
    by_cases har : a = r
    · subst har; rw [getNode_leafSt_self ha]
    · rw [getNode_leafSt_other har ha]
  have hslnew : (getNode (leafSt st r c sub)
      st.nodes.length).suffix_link = none := by
    rw [getNode_leafSt_new hlt]
  have hmono : ∀ m, Reach st m → Reach (leafSt st r c sub) m :=
    fun m hm => Reach_leafSt hwf hlt c sub hm
  have hreachN : Reach (leafSt st r c sub) st.nodes.length := by
    have hmemN : (c, (⟨sub, some st.nodes.length⟩ : transition C)) ∈
        (getNode (leafSt st r c sub) r).g := by
      rw [getNode_leafSt_self hlt]
      exact mem_gIns_self hgf
    exact Reach.step (hmono r hr) hmemN rfl
  refine ⟨?_, ?_, ?_, ?_, ?_, ?_, ?_, ?_, ?_, ?_, ?_⟩
  · rw [hlen]; omega
  · rw [leafSt_last]; exact hwf.lastNN
  · rw [leafSt_hay]; exact hwf.hay0
  · rw [hsl rootId (by show 0 < st.nodes.length; omega)]; exact hwf.rootSL
  · rw [hsl sinkId (by show 1 < st.nodes.length; omega)]; exact hwf.sinkSL
  · have h1 : sinkId ≠ r := fun he => hns he.symm
    rw [getNode_leafSt_other h1 (by show 1 < st.nodes.length; omega)]
    exact hwf.sinkG
  · intro a ha har
    rw [hlen] at ha
    by_cases haL : a = st.nodes.length
    · subst haL
      rw [hslnew]
      exact fun hc => by simp at hc
    · rw [hsl a (by omega)]
      exact hwf.noSinkLink a (by omega) har
  · intro a ha har x hx
    rw [hlen] at ha
    by_cases haL : a = st.nodes.length
    · subst haL; rw [hslnew] at hx; simp at hx
    · rw [hsl a (by omega)] at hx
      exact hmono x (hwf.slReach a (by omega) har x hx)
  · intro nd hnd c' tr hmem
    obtain ⟨i, hi, hgi⟩ := mem_getNode hnd
    rw [hlen] at hi
    subst hgi
    by_cases hiL : i = st.nodes.length
    · subst hiL
      rw [getNode_leafSt_new hlt] at hmem
      simp at hmem
    · by_cases hir : i = r
      · subst hir
        rw [getNode_leafSt_self hlt] at hmem
        rcases mem_gIns_inv hmem with hmem | ⟨h1, h2⟩
        · obtain ⟨m, hm, hm2, hmlt⟩ := hwf.trOK' hmem
          exact ⟨m, hm, hm2, by rw [hlen]; omega⟩
        · subst h2
          exact ⟨st.nodes.length, rfl, by omega, by rw [hlen]; omega⟩
      · rw [getNode_leafSt_other hir (by omega)] at hmem
        obtain ⟨m, hm, hm2, hmlt⟩ := hwf.trOK' hmem
        exact ⟨m, hm, hm2, by rw [hlen]; omega⟩
  · intro m hm2 hmlt
    rw [hlen] at hmlt
    by_cases hmL : m = st.nodes.length
    · subst hmL; exact hreachN
    · exact hmono m (hwf.allReach m hm2 (by omega))
  · intro m hm2 hmlt
    rw [hlen] at hmlt
    have hpush : r < (pushNode st
        (⟨[], none, true⟩ : Node C)).nodes.length := by
      rw [pushNode_len]; omega
    have hmod := countTgt_modifyG
      (f := fun g => gIns g c
        (⟨sub, some st.nodes.length⟩ : transition C)) hpush m
    rw [getNode_pushNode_lt hlt] at hmod
    have hstc : countTgt (leafSt st r c sub) m =
        countTgt (modifyG (pushNode st (⟨[], none, true⟩ : Node C)) r
          (fun g => gIns g c
            (⟨sub, some st.nodes.length⟩ : transition C))) m := rfl
    have hpushc := countTgt_pushNode st (⟨[], none, true⟩ : Node C) m
    have hleaf0 : tgtCount (⟨[], none, true⟩ : Node C) m = 0 := rfl
    have hins : (gIns (getNode st r).g c
          (⟨sub, some st.nodes.length⟩ : transition C)).countP
          (fun p => p.2.tgt = some m) =
        (getNode st r).g.countP (fun p => p.2.tgt = some m) +
        (if (some st.nodes.length : Option Nat) = some m then 1 else 0) := by
      rw [gIns, hgf, List.countP_append, List.countP_singleton]
      by_cases hd : (some st.nodes.length : Option Nat) = some m
      · simp [hd]
      · simp [hd]
    by_cases hmL : m = st.nodes.length
    · subst hmL
      have h0 : countTgt st st.nodes.length = 0 := countTgt_oob hwf (by omega)
      have hA : tgtCount (getNode st r) st.nodes.length = 0 :=
        tgtCount_oob_node hwf (getNode_mem hlt) (by omega)
      have hvt : (if (some st.nodes.length : Option Nat) =
          some st.nodes.length then 1 else 0) = 1 := by simp
      rw [hvt] at hins
      have hA' : (getNode st r).g.countP (fun p => p.2.tgt =
          some st.nodes.length) = 0 := hA
      rw [hstc]
      omega
    · have h1 : countTgt st m = 1 := hwf.indeg m hm2 (by omega)
      have hvt : (if (some st.nodes.length : Option Nat) = some m
          then 1 else 0) = 0 := by
        rw [if_neg (by intro hc; injection hc with hc; omega)]
      rw [hvt] at hins
      rw [hstc]
      omega

/-! ### Suffix-link assignment preserves the invariant -/

lemma WF_setSL {st : STree C} (hwf : WF st) {n x : Nat} (hn : Reach st n)
    (hnr : n ≠ rootId) (hx : Reach st x) : WF (setSL st n (some x)) := by
  have hlt : n < st.nodes.length := reach_lt hwf hn
  have hns : n ≠ sinkId := reach_ne_sink hwf hn
  have hxs : x ≠ sinkId := reach_ne_sink hwf hx
  have hsize2 : 2 ≤ st.nodes.length := hwf.size
  have hlen : (setSL st n (some x)).nodes.length = st.nodes.length :=
    setSL_len
  have hsl : ∀ a, a ≠ n → (getNode (setSL st n (some x)) a).suffix_link =
      (getNode st a).suffix_link := by
    intro a ha
    rw [getNode_setSL_ne ha]
  have hsln : (getNode (setSL st n (some x)) n).suffix_link = some x := by
    rw [getNode_setSL_self hlt]
  refine ⟨?_, ?_, ?_, ?_, ?_, ?_, ?_, ?_, ?_, ?_, ?_⟩
  · rw [hlen]; omega
  · exact hwf.lastNN
  · exact hwf.hay0
  · rw [hsl rootId (fun he => hnr he.symm)]; exact hwf.rootSL
  · rw [hsl sinkId (fun he => hns he.symm)]; exact hwf.sinkSL
  · rw [g_setSL]; exact hwf.sinkG
  · intro a ha har
    rw [hlen] at ha
    by_cases han : a = n
    · subst han
      rw [hsln]
      intro hc
      simp only [Option.some.injEq] at hc
      exact hxs hc
    · rw [hsl a han]
      exact hwf.noSinkLink a ha har
  · intro a ha har y hy
    rw [hlen] at ha
    by_cases han : a = n
    · subst han
      rw [hsln] at hy
      simp only [Option.some.injEq] at hy
      subst hy
      exact Reach_setSL hx
    · rw [hsl a han] at hy
      exact Reach_setSL (hwf.slReach a ha har y hy)
  · intro nd hnd c tr hmem
    obtain ⟨i, hi, hgi⟩ := mem_getNode hnd
    rw [hlen] at hi
    subst hgi
    rw [show (getNode (setSL st n (some x)) i).g = (getNode st i).g from
      g_setSL st n (some x) i] at hmem
    obtain ⟨m, hm, hm2, hmlt⟩ := hwf.trOK' hmem
    exact ⟨m, hm, hm2, by rw [hlen]; omega⟩
  · intro m hm2 hmlt
    rw [hlen] at hmlt
    exact Reach_setSL (hwf.allReach m hm2 hmlt)
  · intro m hm2 hmlt
    rw [hlen] at hmlt
    rw [countTgt_setSL hlt]
    exact hwf.indeg m hm2 hmlt

lemma test_and_split_wf {st : STree C} (hwf : WF st) {n : Nat}
    {kp : mapped_substring} {t : C} {w : List C} {ep : Bool} {r : Nat}
    {st' : STree C} (hn : Reach st n ∨ n = sinkId)
    (h : test_and_split st (some n) kp t w = some (ep, r, st')) :
    WF st' ∧ st.nodes.length ≤ st'.nodes.length ∧
    st'.haystack = st.haystack ∧ st'.last_index = st.last_index ∧
    (∀ m, Reach st m → Reach st' m) ∧
    (∀ a, a < st.nodes.length →
      (getNode st' a).suffix_link = (getNode st a).suffix_link) ∧
    (∀ a, a < st.nodes.length →
      (getNode st' a).isLeaf = (getNode st a).isLeaf) ∧
    (Reach st' r ∨ (ep = true ∧ r = sinkId)) ∧
    (ep = false → Reach st' r ∧ gfind (getNode st' r).g t = none) ∧
    (∀ m, st.nodes.length ≤ m → m < st'.nodes.length → m = r) ∧
    (ep = true → st' = st) ∧
    (kp.r < kp.l → r = n) := by
  rcases test_and_split_cases hwf.hay0 h with
    ⟨rfl, rfl, hcase⟩ |
    ⟨hepf, hd, hns, hlt, hrL, tr, strP, hg, heq, hchar, hst'⟩
  · have hfalse : ep = false →
        gfind (getNode st' r).g t = none ∧ Reach st' r := by
      intro hep
      rcases hcase with hep' | ⟨-, -, htgt⟩
      · rw [hep] at hep'; simp at hep'
      · have hrs : r ≠ sinkId := by
          intro hrs
          rw [find_alpha_transition, if_pos hrs, hwf.sinkSL] at htgt
          simp at htgt
        constructor
        · rw [find_alpha_transition, if_neg hrs] at htgt
          rcases hgf : gfind (getNode st' r).g t with - | tr1
          · rfl
          · exfalso
            rw [hgf] at htgt
            obtain ⟨m, hm, -, -⟩ := hwf.trOK' (gfind_mem hgf)
            rw [hm] at htgt
            simp at htgt
        · rcases hn with hn | hn
          · exact hn
          · exact absurd hn hrs
    refine ⟨hwf, le_refl _, rfl, rfl, fun m hm => hm, fun a _ => rfl,
      fun a _ => rfl, ?_, ?_, ?_, fun _ => rfl, fun _ => rfl⟩
    · rcases hn with hn | hn
      · exact Or.inl hn
      · rcases hb : ep with - | -
        · exact Or.inl (hfalse hb).2
        · exact Or.inr ⟨rfl, hn⟩
    · intro hep
      exact ⟨(hfalse hep).2, (hfalse hep).1⟩
    · intro m h1 h2; omega
  · have hnR : Reach st n := by
      rcases hn with hn | hn
      · exact hn
      · exact absurd hn hns
    have hsp : st' = splitSt st n (sIdx w kp.l)
        (sIdx strP (tr.sub.l + (kp.r - kp.l) + 1))
        ⟨tr.sub.ref_str, tr.sub.l, tr.sub.l + (kp.r - kp.l)⟩
        ⟨tr.sub.ref_str, tr.sub.l + (kp.r - kp.l) + 1, tr.sub.r⟩
        tr.tgt := hst'
    obtain ⟨hwf', hreachN⟩ := WF_splitSt hwf hnR hg
      (sIdx strP (tr.sub.l + (kp.r - kp.l) + 1))
      ⟨tr.sub.ref_str, tr.sub.l, tr.sub.l + (kp.r - kp.l)⟩
      ⟨tr.sub.ref_str, tr.sub.l + (kp.r - kp.l) + 1, tr.sub.r⟩
    subst hsp
    subst hrL
    refine ⟨hwf', ?_, splitSt_hay .., splitSt_last .., ?_, ?_, ?_,
      Or.inl hreachN, ?_, ?_, ?_, ?_⟩
    · rw [splitSt_len]; omega
    · exact fun m hm => Reach_splitSt hwf hg _ _ _ hm
    · intro a ha
      by_cases han : a = n
      · subst han; rw [getNode_splitSt_self ha]
      · rw [getNode_splitSt_other han ha]
    · intro a ha
      by_cases han : a = n
      · subst han; rw [getNode_splitSt_self ha]
      · rw [getNode_splitSt_other han ha]
    · intro hep
      refine ⟨hreachN, ?_⟩
      rw [getNode_splitSt_new (reach_lt hwf hnR)]
      show gfind [(sIdx strP (tr.sub.l + (kp.r - kp.l) + 1), _)] t = none
      rw [gfind, if_neg hchar]
      rfl
    · intro m h1 h2
      rw [splitSt_len] at h2
      omega
    · intro hc
      rw [hepf] at hc
      simp at hc
    · intro hk
      exact absurd hd (by omega)

/-! ### canonize keeps the reference node reachable -/

lemma canonizeAux_reach {st : STree C} (hwf : WF st) {w : List C} :
    ∀ (fuel : Nat) (s : Option Nat) (l r : Int) (tkT : transition C)
      (s' : Option Nat) (l' : Int),
    (∀ sn, s = some sn → (Reach st sn ∨
      (sn = sinkId ∧ tkT.sub.r - tkT.sub.l ≤ r - l))) →
    (∀ b, tkT.tgt = some b → Reach st b) →
    canonizeAux st w fuel s l r tkT = some (s', l') →
    ∀ sn', s' = some sn' → Reach st sn' := by
  intro fuel
  induction fuel with
  | zero =>
    intro s l r tkT s' l' hinv htk h
    simp [canonizeAux] at h
  | succ fuel ih =>
    intro s l r tkT s' l' hinv htk h
    simp only [canonizeAux] at h
    by_cases hd : tkT.sub.r - tkT.sub.l ≤ r - l
    · rw [if_pos hd] at h
      by_cases hl : l + 1 + (tkT.sub.r - tkT.sub.l) ≤ r
      · rw [if_pos hl] at h
        rcases htg : tkT.tgt with - | sId
        · rw [htg] at h; simp at h
        · rw [htg] at h
          have hre : Reach st sId := htk sId htg
          refine ih (some sId) _ r _ s' l' ?_ ?_ h
          · intro sn hsn
            injection hsn with hsn
            subst hsn
            exact Or.inl hre
          · intro b hb
            exact find_tgt_reach hwf (Or.inl hre) hb
      · rw [if_neg hl] at h
        exact ih tkT.tgt _ r tkT s' l'
          (fun sn hsn => Or.inl (htk sn hsn)) htk h
    · rw [if_neg hd] at h
      simp only [Option.some.injEq, Prod.mk.injEq] at h
      obtain ⟨h1, h2⟩ := h
      intro sn' hsn'
      rw [← h1] at hsn'
      rcases hinv sn' hsn' with hr | ⟨-, hcon⟩
      · exact hr
      · exact absurd hcon hd

lemma canonize_reach {st : STree C} (hwf : WF st) {s : Option Nat}
    {kp : mapped_substring} {s' : Option Nat} {l' : Int}
    (hs : ∀ sn, s = some sn → (Reach st sn ∨ sn = sinkId))
    (h : canonize st s kp = some (s', l')) :
    ∀ sn', s' = some sn' →
      (Reach st sn' ∨ (sn' = sinkId ∧ s = some sinkId ∧ kp.r < kp.l)) := by
  rw [canonize] at h
  by_cases hk : kp.r < kp.l
  · rw [if_pos hk] at h
    simp only [Option.some.injEq, Prod.mk.injEq] at h
    obtain ⟨h1, h2⟩ := h
    intro sn' hsn'
    rw [← h1] at hsn'
    rcases hs sn' hsn' with hr | hsink
    · exact Or.inl hr
    · refine Or.inr ⟨hsink, ?_, hk⟩
      rw [← hsink]
      exact hsn'
  · rw [if_neg hk] at h
    rcases hw : hfind st.haystack kp.ref_str with - | w
    · rw [hw] at h; simp at h
    · rw [hw] at h
      rcases hsq : s with - | sId
      · rw [hsq] at h; simp at h
      · rw [hsq] at h
        intro sn' hsn'
        have hsId := hs sId hsq
        have hfirst : ∀ sn, (some sId : Option Nat) = some sn →
            (Reach st sn ∨ (sn = sinkId ∧
              (find_alpha_transition st sId (sIdx w kp.l)).sub.r -
              (find_alpha_transition st sId (sIdx w kp.l)).sub.l ≤
              kp.r - kp.l)) := by
          intro sn hsn
          injection hsn with hsn
          subst hsn
          rcases hsId with hr | hsink
          · exact Or.inl hr
          · refine Or.inr ⟨hsink, ?_⟩
            subst hsink
            rw [find_alpha_transition, if_pos rfl]
            show (0 : Int) - 0 ≤ kp.r - kp.l
            omega
        have htk0 : ∀ b,
            (find_alpha_transition st sId (sIdx w kp.l)).tgt = some b →
            Reach st b := by
          intro b hb
          refine find_tgt_reach hwf ?_ hb
          rcases hsId with hr | hsink
          · exact Or.inl hr
          · exact Or.inr hsink
        exact Or.inl
          (canonizeAux_reach hwf _ _ _ _ _ _ _ hfirst htk0 h sn' hsn')

/-! ### The border-path loop preserves the invariant -/

/-- What holds when one `update` border-path loop finishes: the invariant is
preserved, the arena only grows, reachability and non-null suffix links are
stable, the returned reference node is reachable (or the sink), every node
the loop allocated that is internal carries a suffix link, and the pending
nodes `oldr` (unless it is the root) and `r` (when the last test reported
"not endpoint") have received theirs. -/
structure LoopPost (st st'' : STree C) (sk' : Option Nat × Int)
    (oldr r : Nat) (ep : Bool) : Prop where
  wf : WF st''
  len : st.nodes.length ≤ st''.nodes.length
  mono : ∀ m, Reach st m → Reach st'' m
  hay : st''.haystack = st.haystack
  last : st''.last_index = st.last_index
  skR : ∃ skn, sk'.1 = some skn ∧ (Reach st'' skn ∨ skn = sinkId)
  leafP : ∀ m, m < st.nodes.length →
    (getNode st'' m).isLeaf = (getNode st m).isLeaf
  slMono : ∀ m, m < st.nodes.length →
    (getNode st m).suffix_link ≠ none →
    (getNode st'' m).suffix_link ≠ none
  newSL : ∀ m, st.nodes.length ≤ m → m < st''.nodes.length →
    (getNode st'' m).isLeaf = false → (getNode st'' m).suffix_link ≠ none
  oldrSL : oldr ≠ rootId → (getNode st'' oldr).suffix_link ≠ none
  rSL : ep = false → (getNode st'' r).suffix_link ≠ none

lemma updateLoop_wf {w : List C} {kiRef kiR ki1R : Int} :
    ∀ (fuel : Nat) (st : STree C) (oldr r : Nat) (ep : Bool)
      (sk : Option Nat × Int) (ki1L : Int) (sk' : Option Nat × Int)
      (st'' : STree C),
    WF st →
    (∃ skn, sk.1 = some skn ∧ (Reach st skn ∨ skn = sinkId)) →
    (sk.1 = some sinkId → oldr = rootId) →
    (oldr = rootId ∨ Reach st oldr) →
    (ep = false → Reach st r ∧ gfind (getNode st r).g (sIdx w kiR) = none) →
    (ep = false → ki1R < ki1L → sk.1 = some r) →
    updateLoop w kiRef kiR ki1R fuel st oldr r ep sk ki1L =
      some (sk', st'') →
    LoopPost st st'' sk' oldr r ep := by
  intro fuel
  induction fuel with
  | zero =>
    intro st oldr r ep sk ki1L sk' st'' hwf hsk hIsink holdr hrF hempty h
    simp [updateLoop] at h
  | succ fuel ih =>
    intro st oldr r ep sk ki1L sk' st'' hwf hsk hIsink holdr hrF hempty h
    obtain ⟨skn, hskn, hsknR⟩ := hsk
    cases ep with
    | true =>
      simp only [updateLoop] at h
      simp only [Option.some.injEq, Prod.mk.injEq] at h
      obtain ⟨hsk'eq, hst''⟩ := h
      subst hsk'eq
      by_cases ho : oldr = rootId
      · rw [if_neg (fun hc => hc ho)] at hst''
        subst hst''
        exact ⟨hwf, le_refl _, fun m hm => hm, rfl, rfl,
          ⟨skn, hskn, hsknR⟩, fun m _ => rfl, fun m _ hs => hs,
          fun m h1 h2 _ => absurd h1 (by omega),
          fun hc => absurd ho hc, fun hc => by simp at hc⟩
      · have holdrR : Reach st oldr := by
          rcases holdr with h1 | h1
          · exact absurd h1 ho
          · exact h1
        have holt : oldr < st.nodes.length := reach_lt hwf holdrR
        have hsknReach : Reach st skn := by
          rcases hsknR with h1 | h1
          · exact h1
          · exfalso
            rw [h1] at hskn
            exact ho (hIsink hskn)
        rw [if_pos ho, hskn] at hst''
        subst hst''
        refine ⟨WF_setSL hwf holdrR ho hsknReach, ?_, ?_, rfl, rfl,
          ⟨skn, hskn, Or.inl (Reach_setSL hsknReach)⟩, ?_, ?_, ?_, ?_,
          fun hc => by simp at hc⟩
        · rw [setSL_len]
        · exact fun m hm => Reach_setSL hm
        · intro m _
          rw [isLeaf_setSL]
        · intro m hm hs
          by_cases hmo : m = oldr
          · subst hmo
            rw [getNode_setSL_self holt]
            simp
          · rw [getNode_setSL_ne hmo]
            exact hs
        · intro m h1 h2
          rw [setSL_len] at h2
          omega
        · intro _
          rw [getNode_setSL_self holt]
          simp
    | false =>
      obtain ⟨hrR, hgf⟩ := hrF rfl
      have hrlt : r < st.nodes.length := reach_lt hwf hrR
      simp only [updateLoop] at h
      have hfoldE : leafSt st r (sIdx w kiR)
          (⟨kiRef, kiR, intMax⟩ : mapped_substring) =
          modifyG (pushNode st ⟨[], none, true⟩) r
            (fun g => gIns g (sIdx w kiR)
              ⟨⟨kiRef, kiR, intMax⟩, some st.nodes.length⟩) := rfl
      rw [← hfoldE] at h
      set B := if oldr ≠ rootId then
          setSL (leafSt st r (sIdx w kiR) ⟨kiRef, kiR, intMax⟩) oldr (some r)
        else leafSt st r (sIdx w kiR) ⟨kiRef, kiR, intMax⟩ with hB
      have hpack : WF B ∧ B.nodes.length = st.nodes.length + 1 ∧
          (∀ m, Reach st m → Reach B m) ∧ B.haystack = st.haystack ∧
          B.last_index = st.last_index ∧
          (∀ m, m < st.nodes.length →
            (getNode B m).isLeaf = (getNode st m).isLeaf) ∧
          (getNode B st.nodes.length).isLeaf = true ∧
          (∀ m, m < st.nodes.length → (getNode st m).suffix_link ≠ none →
            (getNode B m).suffix_link ≠ none) ∧
          (oldr ≠ rootId → (getNode B oldr).suffix_link = some r) := by
        by_cases ho : oldr = rootId
        · rw [hB, if_neg (fun hc => hc ho)]
          refine ⟨WF_leafSt hwf hrR hgf _, leafSt_len .., 
            fun m hm => Reach_leafSt hwf hrlt _ _ hm, leafSt_hay ..,
            leafSt_last .., ?_, ?_, ?_, fun hc => absurd ho hc⟩
          · intro m hm
            by_cases hmr : m = r
            · subst hmr; rw [getNode_leafSt_self hm]
            · rw [getNode_leafSt_other hmr hm]
          · rw [getNode_leafSt_new hrlt]
          · intro m hm hs
            by_cases hmr : m = r
            · subst hmr; rw [getNode_leafSt_self hm]; exact hs
            · rw [getNode_leafSt_other hmr hm]; exact hs
        · have holdrR : Reach st oldr := by
            rcases holdr with h1 | h1
            · exact absurd h1 ho
            · exact h1
          have holt : oldr < st.nodes.length := reach_lt hwf holdrR
          have hwf2 : WF (leafSt st r (sIdx w kiR) ⟨kiRef, kiR, intMax⟩) :=
            WF_leafSt hwf hrR hgf _
          have hmono2 : ∀ m, Reach st m →
              Reach (leafSt st r (sIdx w kiR) ⟨kiRef, kiR, intMax⟩) m :=
            fun m hm => Reach_leafSt hwf hrlt _ _ hm
          have holt2 : oldr <
              (leafSt st r (sIdx w kiR) ⟨kiRef, kiR, intMax⟩).nodes.length := by
            rw [leafSt_len]; omega
          rw [hB, if_pos ho]
          refine ⟨WF_setSL hwf2 (hmono2 oldr holdrR) ho (hmono2 r hrR),
            ?_, fun m hm => Reach_setSL (hmono2 m hm), rfl, rfl,
            ?_, ?_, ?_, ?_⟩
          · rw [setSL_len, leafSt_len]
          · intro m hm
            rw [isLeaf_setSL]
            by_cases hmr : m = r
            · subst hmr; rw [getNode_leafSt_self hm]
            · rw [getNode_leafSt_other hmr hm]
          · rw [isLeaf_setSL, getNode_leafSt_new hrlt]
          · intro m hm hs
            by_cases hmo : m = oldr
            · subst hmo
              rw [getNode_setSL_self holt2]
              simp
            · rw [getNode_setSL_ne hmo]
              by_cases hmr : m = r
              · subst hmr; rw [getNode_leafSt_self hm]; exact hs
              · rw [getNode_leafSt_other hmr hm]; exact hs
          · intro _
            rw [getNode_setSL_self holt2]
      obtain ⟨hwfB, hlenB, hmonoB, hhayB, hlastB, hleafPB, hleafLB,
        hslMonoB, holdrSLB⟩ := hpack
      have hreachSknB : Reach B skn ∨ skn = sinkId := by
        rcases hsknR with h1 | h1
        · exact Or.inl (hmonoB skn h1)
        · exact Or.inr h1
      rw [hskn] at h
      have h1 : (match canonize B (getNode B skn).suffix_link
            ⟨kiRef, ki1L, ki1R⟩ with
          | none => none
          | some (s', l') =>
            match test_and_split B s' ⟨kiRef, l', ki1R⟩ (sIdx w kiR) w with
            | none => none
            | some (ep', r', st4) =>
              updateLoop w kiRef kiR ki1R fuel st4 r r' ep' (s', l') l') =
          some (sk', st'') := h
      rcases hc : canonize B (getNode B skn).suffix_link
          ⟨kiRef, ki1L, ki1R⟩ with - | pr
      · rw [hc] at h1
        exact absurd (show (none :
            Option ((Option Nat × Int) × STree C)) = some (sk', st'')
          from h1) (by simp)
      · obtain ⟨s', l'⟩ := pr
        rw [hc] at h1
        have h2 : (match test_and_split B s' ⟨kiRef, l', ki1R⟩
              (sIdx w kiR) w with
            | none => none
            | some (ep', r', st4) =>
              updateLoop w kiRef kiR ki1R fuel st4 r r' ep' (s', l') l') =
            some (sk', st'') := h1
        rcases hts : test_and_split B s' ⟨kiRef, l', ki1R⟩
            (sIdx w kiR) w with - | trip
        · rw [hts] at h2
          exact absurd (show (none :
              Option ((Option Nat × Int) × STree C)) = some (sk', st'')
            from h2) (by simp)
        · obtain ⟨ep', r', st4⟩ := trip
          rw [hts] at h2
          have h3 : updateLoop w kiRef kiR ki1R fuel st4 r r' ep'
              (s', l') l' = some (sk', st'') := h2
          have hsCan : ∀ sn, (getNode B skn).suffix_link = some sn →
              (Reach B sn ∨ sn = sinkId) := by
            intro sn hsn
            rcases hreachSknB with h1 | h1
            · by_cases hroot : skn = rootId
              · subst hroot
                rw [hwfB.rootSL] at hsn
                injection hsn with h2
                exact Or.inr h2.symm
              · have hlt := reach_lt hwfB h1
                exact Or.inl (hwfB.slReach skn hlt hroot sn hsn)
            · subst h1
              rw [hwfB.sinkSL] at hsn
              injection hsn with h2
              subst h2
              exact Or.inl Reach.root
          have hcanR := canonize_reach hwfB hsCan hc
          rcases hs'q : s' with - | n'
          · rw [hs'q] at hts
            simp [test_and_split] at hts
          · rw [hs'q] at hts
            have hn' : Reach B n' ∨ n' = sinkId := by
              rcases hcanR n' hs'q with h1 | ⟨h1, -, -⟩
              · exact Or.inl h1
              · exact Or.inr h1
            obtain ⟨hwf4, hlen4, hhay4, hlast4, hmono4, hslpres4,
              hleafpres4, hr'R, hr'F, hrange4, hep'eq, hkpemp4⟩ :=
              test_and_split_wf hwfB hn' hts
            have hIH := ih st4 r r' ep' (s', l') l' sk' st'' hwf4
              ⟨n', hs'q, by
                rcases hn' with h1 | h1
                · exact Or.inl (hmono4 n' h1)
                · exact Or.inr h1⟩
              (by
                intro hsinks
                have hsinks' : s' = some sinkId := hsinks
                rcases hcanR sinkId hsinks' with h1 | ⟨-, hsls, hkempty⟩
                · exact absurd rfl (reach_ne_sink hwfB h1)
                · have hsknRoot : skn = rootId := by
                    rcases hreachSknB with h2 | h2
                    · by_cases hroot : skn = rootId
                      · exact hroot
                      · exact absurd hsls
                          (hwfB.noSinkLink skn (reach_lt hwfB h2) hroot)
                    · exfalso
                      rw [h2, hwfB.sinkSL] at hsls
                      injection hsls with h3
                      exact absurd h3 (by decide)
                  have hr0 : sk.1 = some r := hempty rfl hkempty
                  rw [hskn] at hr0
                  injection hr0 with h3
                  rw [← h3]
                  exact hsknRoot)
              (Or.inr (hmono4 r (hmonoB r hrR)))
              (by
                intro hep
                exact hr'F hep)
              (by
                intro hep hkp
                have hr'n : r' = n' := hkpemp4 hkp
                rw [hs'q, hr'n])
              h3
            have hlenStB : st.nodes.length < B.nodes.length := by omega
            refine ⟨hIH.wf, ?_, ?_, ?_, ?_, hIH.skR, ?_, ?_, ?_, ?_, ?_⟩
            · have := hIH.len
              omega
            · exact fun m hm => hIH.mono m (hmono4 m (hmonoB m hm))
            · rw [hIH.hay, hhay4, hhayB]
            · rw [hIH.last, hlast4, hlastB]
            · intro m hm
              rw [hIH.leafP m (by omega), hleafpres4 m (by omega),
                hleafPB m hm]
            · intro m hm hs
              refine hIH.slMono m (by omega) ?_
              rw [hslpres4 m (by omega)]
              exact hslMonoB m hm hs
            · intro m hm1 hm2 hleaf
              by_cases hmL : m = st.nodes.length
              · exfalso
                subst hmL
                rw [hIH.leafP _ (by omega), hleafpres4 _ (by omega),
                  hleafLB] at hleaf
                simp at hleaf
              · by_cases hm4 : m < st4.nodes.length
                · have hmr' : m = r' := hrange4 m (by omega) hm4
                  subst hmr'
                  cases ep' with
                  | true =>
                    exfalso
                    have hst4B : st4 = B := hep'eq rfl
                    rw [hst4B] at hm4
                    omega
                  | false =>
                    exact hIH.rSL rfl
                · exact hIH.newSL m (by omega) hm2 hleaf
            · intro ho
              have holdrR : Reach st oldr := by
                rcases holdr with h1 | h1
                · exact absurd h1 ho
                · exact h1
              have holt : oldr < st.nodes.length := reach_lt hwf holdrR
              refine hIH.slMono oldr (by omega) ?_
              rw [hslpres4 oldr (by omega), holdrSLB ho]
              simp
            · intro _
              by_cases hroot : r = rootId
              · subst hroot
                rw [hIH.wf.rootSL]
                simp
              · exact hIH.oldrSL hroot

/-! ### update preserves the invariant -/

lemma update_wf {fuel : Nat} {st : STree C} {s : Option Nat}
    {ki : mapped_substring} {sk' : Option Nat × Int} {st'' : STree C}
    (hwf : WF st)
    (hs : ∀ sn, s = some sn → (Reach st sn ∨ sn = sinkId))
    (h : update fuel st s ki = some (sk', st'')) :
    WF st'' ∧ st.nodes.length ≤ st''.nodes.length ∧
    (∀ m, Reach st m → Reach st'' m) ∧
    st''.haystack = st.haystack ∧ st''.last_index = st.last_index ∧
    (∃ skn, sk'.1 = some skn ∧ (Reach st'' skn ∨ skn = sinkId)) ∧
    (∀ m, m < st.nodes.length →
      (getNode st'' m).isLeaf = (getNode st m).isLeaf) ∧
    (∀ m, m < st.nodes.length → (getNode st m).suffix_link ≠ none →
      (getNode st'' m).suffix_link ≠ none) ∧
    (∀ m, st.nodes.length ≤ m → m < st''.nodes.length →
      (getNode st'' m).isLeaf = false →
      (getNode st'' m).suffix_link ≠ none) := by
  simp only [update] at h
  rcases hw : hfind st.haystack ki.ref_str with - | w
  · rw [hw] at h
    simp at h
  · rw [hw] at h
    have h1 : (match test_and_split st s ⟨ki.ref_str, ki.l, ki.r - 1⟩
          (sIdx w ki.r) w with
        | none => none
        | some (ep, r, st1) =>
          updateLoop w ki.ref_str ki.r (ki.r - 1) fuel st1 rootId r ep
            (s, ki.l) ki.l) = some (sk', st'') := h
    rcases hts : test_and_split st s ⟨ki.ref_str, ki.l, ki.r - 1⟩
        (sIdx w ki.r) w with - | trip
    · rw [hts] at h1
      exact absurd (show (none :
          Option ((Option Nat × Int) × STree C)) = some (sk', st'')
        from h1) (by simp)
    · obtain ⟨ep, r, st1⟩ := trip
      rw [hts] at h1
      have h2 : updateLoop w ki.ref_str ki.r (ki.r - 1) fuel st1 rootId r ep
          (s, ki.l) ki.l = some (sk', st'') := h1
      rcases hsq : s with - | n
      · rw [hsq] at hts
        simp [test_and_split] at hts
      · rw [hsq] at hts
        have hn := hs n hsq
        obtain ⟨hwf1, hlen1, hhay1, hlast1, hmono1, hslpres1, hleafpres1,
          hrR1, hrF1, hrange1, hepTrue1, hkpeq1⟩ :=
          test_and_split_wf hwf hn hts
        have hP := updateLoop_wf fuel st1 rootId r ep (s, ki.l) ki.l sk' st''
          hwf1
          ⟨n, hsq, by
            rcases hn with h3 | h3
            · exact Or.inl (hmono1 n h3)
            · exact Or.inr h3⟩
          (fun _ => rfl)
          (Or.inl rfl)
          (fun hep => hrF1 hep)
          (by
            intro hep hkp
            have hrn : r = n := hkpeq1 hkp
            rw [hsq, hrn])
          h2
        refine ⟨hP.wf, le_trans hlen1 hP.len,
          fun m hm => hP.mono m (hmono1 m hm), ?_, ?_, hP.skR, ?_, ?_, ?_⟩
        · rw [hP.hay, hhay1]
        · rw [hP.last, hlast1]
        · intro m hm
          rw [hP.leafP m (by omega), hleafpres1 m hm]
        · intro m hm hsl
          refine hP.slMono m (by omega) ?_
          rw [hslpres1 m hm]
          exact hsl
        · intro m hm1 hm2 hleaf
          by_cases hm3 : m < st1.nodes.length
          · have hmr : m = r := hrange1 m hm1 hm3
            subst hmr
            cases ep with
            | true =>
              exfalso
              have he : st1 = st := hepTrue1 rfl
              rw [he] at hm3
              omega
            | false =>
              exact hP.rSL rfl
          · exact hP.newSL m (by omega) hm2 hleaf

/-! ### deploy_suffixes preserves the invariant -/

lemma deployLoop_wf {sindex : Int} {s : List C} :
    ∀ (fuel : Nat) (st : STree C) (active : Option Nat × Int) (i : Int)
      (res : Int) (st'' : STree C),
    WF st →
    (∀ an, active.1 = some an → (Reach st an ∨ an = sinkId)) →
    deployLoop sindex s fuel st active i = some (res, st'') →
    WF st'' ∧ st.nodes.length ≤ st''.nodes.length ∧
    (∀ m, Reach st m → Reach st'' m) ∧
    st''.haystack = st.haystack ∧ st''.last_index = st.last_index ∧
    (∀ m, m < st.nodes.length →
      (getNode st'' m).isLeaf = (getNode st m).isLeaf) ∧
    (∀ m, m < st.nodes.length → (getNode st m).suffix_link ≠ none →
      (getNode st'' m).suffix_link ≠ none) ∧
    (∀ m, st.nodes.length ≤ m → m < st''.nodes.length →
      (getNode st'' m).isLeaf = false →
      (getNode st'' m).suffix_link ≠ none) := by
  intro fuel
  induction fuel with
  | zero =>
    intro st active i res st'' hwf hactive h
    simp [deployLoop] at h
  | succ fuel ih =>
    intro st active i res st'' hwf hactive h
    simp only [deployLoop] at h
    by_cases hi : i < (s.length : Int)
    · rw [if_pos hi] at h
      have h1 : (match update (updFuel st s) st active.1
            ⟨sindex, active.2, i⟩ with
          | none => none
          | some (sk, st1) =>
            match canonize st1 sk.1 ⟨sindex, sk.2, i⟩ with
            | none => none
            | some (a, l) => deployLoop sindex s fuel st1 (a, l) (i + 1)) =
          some (res, st'') := h
      rcases hu : update (updFuel st s) st active.1 ⟨sindex, active.2, i⟩
        with - | pr
      · rw [hu] at h1
        exact absurd (show (none : Option (Int × STree C)) = some (res, st'')
          from h1) (by simp)
      · obtain ⟨sk, st1⟩ := pr
        rw [hu] at h1
        have h2 : (match canonize st1 sk.1 ⟨sindex, sk.2, i⟩ with
            | none => none
            | some (a, l) => deployLoop sindex s fuel st1 (a, l) (i + 1)) =
            some (res, st'') := h1
        rcases hcz : canonize st1 sk.1 ⟨sindex, sk.2, i⟩ with - | pr2
        · rw [hcz] at h2
          exact absurd (show (none : Option (Int × STree C)) =
            some (res, st'') from h2) (by simp)
        · obtain ⟨a, l⟩ := pr2
          rw [hcz] at h2
          have h3 : deployLoop sindex s fuel st1 (a, l) (i + 1) =
              some (res, st'') := h2
          obtain ⟨hwf1, hlen1, hmono1, hhay1, hlast1, hskR1, hleaf1,
            hslm1, hnew1⟩ := update_wf hwf hactive hu
          have hsk1 : ∀ sn, sk.1 = some sn →
              (Reach st1 sn ∨ sn = sinkId) := by
            intro sn hsn
            obtain ⟨skn, hskn, hR⟩ := hskR1
            rw [hskn] at hsn
            injection hsn with hsn
            subst hsn
            exact hR
          have hactive1 : ∀ an, (a, l).1 = some an →
              (Reach st1 an ∨ an = sinkId) := by
            intro an han
            rcases canonize_reach hwf1 hsk1 hcz an han with h4 | ⟨h4, -, -⟩
            · exact Or.inl h4
            · exact Or.inr h4
          obtain ⟨hwf2, hlen2, hmono2, hhay2, hlast2, hleaf2, hslm2,
            hnew2⟩ := ih st1 (a, l) (i + 1) res st'' hwf1 hactive1 h3
          refine ⟨hwf2, le_trans hlen1 hlen2,
            fun m hm => hmono2 m (hmono1 m hm), ?_, ?_, ?_, ?_, ?_⟩
          · rw [hhay2, hhay1]
          · rw [hlast2, hlast1]
          · intro m hm
            rw [hleaf2 m (by omega), hleaf1 m hm]
          · intro m hm hsl
            exact hslm2 m (by omega) (hslm1 m hm hsl)
          · intro m hm1 hm2 hleaf
            by_cases hm3 : m < st1.nodes.length
            · refine hslm2 m hm3 ?_
              refine hnew1 m hm1 hm3 ?_
              rw [← hleaf2 m hm3]
              exact hleaf
            · exact hnew2 m (by omega) hm2 hleaf
    · rw [if_neg hi] at h
      simp only [Option.some.injEq, Prod.mk.injEq] at h
      obtain ⟨-, h2⟩ := h
      subst h2
      exact ⟨hwf, le_refl _, fun m hm => hm, rfl, rfl, fun m _ => rfl,
        fun m _ hs => hs, fun m h1 h2 _ => absurd h1 (by omega)⟩

lemma gsnLoop_reach {st : STree C} (hwf : WF st) {s : List C} :
    ∀ (fuel : Nat) (n0 : Nat) (k rl : Int) (i : Int) (node : Nat) (l : Int),
    (Reach st n0 ∨ n0 = sinkId) →
    gsnLoop st s fuel n0 k rl = some (i, node, l) →
    (Reach st node ∨ node = sinkId) := by
  intro fuel
  induction fuel with
  | zero =>
    intro n0 k rl i node l h0 h
    simp [gsnLoop] at h
  | succ fuel ih =>
    intro n0 k rl i node l h0 h
    simp only [gsnLoop] at h
    rcases htg : (find_alpha_transition st n0 (sIdx s k)).tgt with - | tgtId
    · rw [htg] at h
      simp only [Option.some.injEq, Prod.mk.injEq] at h
      obtain ⟨-, h2, -⟩ := h
      rw [← h2]
      exact h0
    · rw [htg] at h
      have hre : Reach st tgtId := find_tgt_reach hwf h0 htg
      rcases hsc : edgeScan s
          (hfind st.haystack
            (find_alpha_transition st n0 (sIdx s k)).sub.ref_str)
          k (find_alpha_transition st n0 (sIdx s k)).sub.l
          ((find_alpha_transition st n0 (sIdx s k)).sub.r -
            (find_alpha_transition st n0 (sIdx s k)).sub.l)
          (s.length + 2) 1 with - | i0 | i0 | -
      · rw [hsc] at h
        have h2 : (some (intMax, n0, intMax) : Option (Int × Nat × Int)) =
            some (i, node, l) := h
        simp only [Option.some.injEq, Prod.mk.injEq] at h2
        obtain ⟨-, h3, -⟩ := h2
        rw [← h3]
        exact h0
      · rw [hsc] at h
        have h2 : (some (k + i0, n0, k) : Option (Int × Nat × Int)) =
            some (i, node, l) := h
        simp only [Option.some.injEq, Prod.mk.injEq] at h2
        obtain ⟨-, h3, -⟩ := h2
        rw [← h3]
        exact h0
      · rw [hsc] at h
        have h2 : gsnLoop st s fuel tgtId (k + i0) rl =
            some (i, node, l) := h
        exact ih tgtId (k + i0) rl i node l (Or.inl hre) h2
      · rw [hsc] at h
        exact absurd (show (none : Option (Int × Nat × Int)) =
          some (i, node, l) from h) (by simp)

lemma deploy_suffixes_wf {st : STree C} {s : List C} {sindex res : Int}
    {st'' : STree C} (hwf : WF st)
    (h : deploy_suffixes st s sindex = some (res, st'')) :
    WF st'' ∧ st.nodes.length ≤ st''.nodes.length ∧
    (∀ m, Reach st m → Reach st'' m) ∧
    st''.haystack = st.haystack ∧ st''.last_index = st.last_index ∧
    (∀ m, m < st.nodes.length →
      (getNode st'' m).isLeaf = (getNode st m).isLeaf) ∧
    (∀ m, m < st.nodes.length → (getNode st m).suffix_link ≠ none →
      (getNode st'' m).suffix_link ≠ none) ∧
    (∀ m, st.nodes.length ≤ m → m < st''.nodes.length →
      (getNode st'' m).isLeaf = false →
      (getNode st'' m).suffix_link ≠ none) := by
  simp only [deploy_suffixes] at h
  rcases hg : get_starting_node st s rootId 0 with - | trip
  · rw [hg] at h
    simp at h
  · obtain ⟨i, node, l⟩ := trip
    rw [hg] at h
    have hnode : Reach st node ∨ node = sinkId := by
      rw [get_starting_node] at hg
      exact gsnLoop_reach hwf _ rootId 0 0 i node l (Or.inl Reach.root) hg
    have h1 : (if i = intMax then some (-1, st)
        else deployLoop sindex s (s.length + 2) st (some node, l) i) =
        some (res, st'') := h
    by_cases hiM : i = intMax
    · rw [if_pos hiM] at h1
      simp only [Option.some.injEq, Prod.mk.injEq] at h1
      obtain ⟨-, h2⟩ := h1
      subst h2
      exact ⟨hwf, le_refl _, fun m hm => hm, rfl, rfl, fun m _ => rfl,
        fun m _ hs => hs, fun m h1 h2 _ => absurd h1 (by omega)⟩
    · rw [if_neg hiM] at h1
      refine deployLoop_wf _ st (some node, l) i res st'' hwf ?_ h1
      intro an han
      injection han with han
      subst han
      exact hnode

/-! ### addString preserves the invariant -/

lemma WF_congr {st st' : STree C} (hn : st'.nodes = st.nodes)
    (hl : 0 ≤ st'.last_index) (hh : hfind st'.haystack 0 = none)
    (hwf : WF st) : WF st' := by
  have hget : ∀ a, getNode st' a = getNode st a := by
    intro a
    simp only [getNode, hn]
  have hreach : ∀ m, Reach st m → Reach st' m :=
    fun m hm => Reach_congr hn.symm hm
  refine ⟨?_, hl, hh, ?_, ?_, ?_, ?_, ?_, ?_, ?_, ?_⟩
  · rw [hn]; exact hwf.size
  · rw [hget]; exact hwf.rootSL
  · rw [hget]; exact hwf.sinkSL
  · rw [hget]; exact hwf.sinkG
  · intro n h1 h2
    rw [hget]
    rw [hn] at h1
    exact hwf.noSinkLink n h1 h2
  · intro n h1 h2 x hx
    rw [hget] at hx
    rw [hn] at h1
    exact hreach x (hwf.slReach n h1 h2 x hx)
  · intro nd hnd c tr hmem
    rw [hn] at hnd
    obtain ⟨m, hm, h2, h3⟩ := hwf.trOK nd hnd c tr hmem
    exact ⟨m, hm, h2, by rw [hn]; omega⟩
  · intro m h1 h2
    rw [hn] at h2
    exact hreach m (hwf.allReach m h1 h2)
  · intro m h1 h2
    rw [hn] at h2
    have hcnt : countTgt st' m = countTgt st m := by
      simp only [countTgt, hn]
    rw [hcnt]
    exact hwf.indeg m h1 h2

lemma hfind_hErase_of_none {h : List (Int × List C)} {k x : Int}
    (hx : hfind h x = none) : hfind (hErase h k) x = none := by
  induction h with
  | nil => rfl
  | cons q h ih =>
    obtain ⟨k', w'⟩ := q
    rw [hfind] at hx
    split at hx
    · simp at hx
    · rename_i hne
      rw [hErase, List.filter_cons]
      split
      · rw [hfind, if_neg hne]
        have h2 := ih hx
        rw [hErase] at h2
        exact h2
      · have h2 := ih hx
        rw [hErase] at h2
        exact h2

lemma addString_wf {st : STree C} {w : List C} {res : Int} {st' : STree C}
    (hwf : WF st) (h : addString st w = some (res, st')) :
    WF st' ∧ st.nodes.length ≤ st'.nodes.length ∧
    (∀ m, Reach st m → Reach st' m) ∧
    (∀ m, m < st.nodes.length →
      (getNode st' m).isLeaf = (getNode st m).isLeaf) ∧
    (∀ m, m < st.nodes.length → (getNode st m).suffix_link ≠ none →
      (getNode st' m).suffix_link ≠ none) ∧
    (∀ m, st.nodes.length ≤ m → m < st'.nodes.length →
      (getNode st' m).isLeaf = false →
      (getNode st' m).suffix_link ≠ none) := by
  have hge := hwf.lastNN
  simp only [addString] at h
  have hwf1 : WF (⟨st.nodes, hIns st.haystack (st.last_index + 1) w,
      st.last_index + 1⟩ : STree C) := by
    refine WF_congr (show (⟨st.nodes, hIns st.haystack (st.last_index + 1) w,
        st.last_index + 1⟩ : STree C).nodes = st.nodes from rfl)
      (by show 0 ≤ st.last_index + 1; omega) ?_ hwf
    show hfind (hIns st.haystack (st.last_index + 1) w) 0 = none
    rw [hfind_hIns_ne (by omega)]
    exact hwf.hay0
  rcases hd : deploy_suffixes
      (⟨st.nodes, hIns st.haystack (st.last_index + 1) w,
        st.last_index + 1⟩ : STree C) w (st.last_index + 1) with - | pr
  · rw [hd] at h
    simp at h
  · obtain ⟨res2, st2⟩ := pr
    rw [hd] at h
    have h2 : (if res2 < 0 then
        some (-1, (⟨st2.nodes, hErase st2.haystack (st.last_index + 1),
          st2.last_index - 1⟩ : STree C))
      else some (st.last_index + 1, st2)) = some (res, st') := h
    obtain ⟨hwf2, hlen2, hmono2, hhay2, hlast2, hleaf2, hslm2, hnew2⟩ :=
      deploy_suffixes_wf hwf1 hd
    have hmono1 : ∀ m, Reach st m →
        Reach (⟨st.nodes, hIns st.haystack (st.last_index + 1) w,
          st.last_index + 1⟩ : STree C) m :=
      fun m hm => Reach_congr (show st.nodes = (⟨st.nodes,
        hIns st.haystack (st.last_index + 1) w,
        st.last_index + 1⟩ : STree C).nodes from rfl) hm
    by_cases hneg : res2 < 0
    · rw [if_pos hneg] at h2
      simp only [Option.some.injEq, Prod.mk.injEq] at h2
      obtain ⟨-, h3⟩ := h2
      subst h3
      have hwf' : WF (⟨st2.nodes, hErase st2.haystack (st.last_index + 1),
          st2.last_index - 1⟩ : STree C) := by
        refine WF_congr (show (⟨st2.nodes,
            hErase st2.haystack (st.last_index + 1),
            st2.last_index - 1⟩ : STree C).nodes = st2.nodes from rfl)
          ?_ ?_ hwf2
        · show 0 ≤ st2.last_index - 1
          rw [hlast2]
          show 0 ≤ st.last_index + 1 - 1
          omega
        · show hfind (hErase st2.haystack (st.last_index + 1)) 0 = none
          exact hfind_hErase_of_none hwf2.hay0
      refine ⟨hwf', hlen2, ?_, ?_, ?_, ?_⟩
      · exact fun m hm => Reach_congr (show st2.nodes = (⟨st2.nodes,
          hErase st2.haystack (st.last_index + 1),
          st2.last_index - 1⟩ : STree C).nodes from rfl)
          (hmono2 m (hmono1 m hm))
      · intro m hm
        exact hleaf2 m hm
      · intro m hm hsl
        exact hslm2 m hm hsl
      · intro m hm1 hm2 hleaf
        exact hnew2 m hm1 hm2 hleaf
    · rw [if_neg hneg] at h2
      simp only [Option.some.injEq, Prod.mk.injEq] at h2
      obtain ⟨-, h3⟩ := h2
      subst h3
      exact ⟨hwf2, hlen2, fun m hm => hmono2 m (hmono1 m hm),
        fun m hm => hleaf2 m hm, fun m hm hsl => hslm2 m hm hsl,
        fun m hm1 hm2 hleaf => hnew2 m hm1 hm2 hleaf⟩

lemma runGo_wf : ∀ (ws : List (List C)) (st : STree C) (acc : List Int)
    (rs : List Int) (st' : STree C), WF st →
    runGo ws st acc = some (rs, st') → WF st' := by
  intro ws
  induction ws with
  | nil =>
    intro st acc rs st' hwf h
    rw [runGo] at h
    simp only [Option.some.injEq, Prod.mk.injEq] at h
    obtain ⟨-, h2⟩ := h
    rw [← h2]
    exact hwf
  | cons w ws ih =>
    intro st acc rs st' hwf h
    rw [runGo] at h
    rcases ha : addString st w with - | pr
    · rw [ha] at h
      simp at h
    · obtain ⟨r, st1⟩ := pr
      rw [ha] at h
      have h2 : runGo ws st1 (r :: acc) = some (rs, st') := h
      exact ih st1 (r :: acc) rs st' (addString_wf hwf ha).1 h2

lemma runList_wf {ws : List (List C)} {rs : List Int} {st' : STree C}
    (h : runList ws = some (rs, st')) : WF st' :=
  runGo_wf ws initState [] rs st' WF_initState h

/-! ## Claim C8: suffix-link completeness -/

/-- Claim C8: after any successful `addString` on a well-formed state, every
node created during the insertion that is internal (not a leaf) carries a
non-null suffix link whose target is reachable from the root; the root's
and the sink's mutual suffix links keep the values wired at construction;
and already when any single `update` call (one border-path loop) returns,
every internal node it created has a non-null suffix link — the assignment
happens before the loop that created the node finishes. -/
theorem C8_theorem {st : STree C} {w : List C} {res : Int} {st' : STree C}
    (hwf : WF st) (h : addString st w = some (res, st')) (_hres : 0 ≤ res) :
    (∀ m, st.nodes.length ≤ m → m < st'.nodes.length →
      (getNode st' m).isLeaf = false →
      ∃ x, (getNode st' m).suffix_link = some x ∧ Reach st' x) ∧
    (getNode st' rootId).suffix_link = some sinkId ∧
    (getNode st' sinkId).suffix_link = some rootId ∧
    (getNode st rootId).suffix_link = some sinkId ∧
    (getNode st sinkId).suffix_link = some rootId ∧
    (∀ (st0 : STree C) (fuel : Nat) (s : Option Nat) (ki : mapped_substring)
        (sk0 : Option Nat × Int) (st0' : STree C), WF st0 →
      (∀ sn, s = some sn → (Reach st0 sn ∨ sn = sinkId)) →
      update fuel st0 s ki = some (sk0, st0') →
      ∀ m, st0.nodes.length ≤ m → m < st0'.nodes.length →
        (getNode st0' m).isLeaf = false →
        (getNode st0' m).suffix_link ≠ none) := by
  obtain ⟨hwf', hlen, hmono, hleafP, hslm, hnew⟩ := addString_wf hwf h
  refine ⟨?_, hwf'.rootSL, hwf'.sinkSL, hwf.rootSL, hwf.sinkSL, ?_⟩
  · intro m h1 h2 h3
    have hsl := hnew m h1 h2 h3
    rcases hx : (getNode st' m).suffix_link with - | x
    · exact absurd hx hsl
    · refine ⟨x, rfl, ?_⟩
      have hm0 : m ≠ rootId := by
        show m ≠ 0
        have := hwf.size
        omega
      exact hwf'.slReach m h2 hm0 x hx
  · intro st0 fuel s ki sk0 st0' hwf0 hs0 hu m h1 h2 h3
    obtain ⟨-, -, -, -, -, -, -, -, hnew0⟩ := update_wf hwf0 hs0 hu
    exact hnew0 m h1 h2 h3

/-- Witness for C8 at a concrete input: inserting `[1, 1]` into the fresh
tree succeeds and the conclusion holds for the resulting state. -/
theorem C8_witness :
    (∀ m, (initState (C := Nat)).nodes.length ≤ m → m < stXX.nodes.length →
      (getNode stXX m).isLeaf = false →
      ∃ x, (getNode stXX m).suffix_link = some x ∧ Reach stXX x) ∧
    (getNode stXX rootId).suffix_link = some sinkId ∧
    (getNode stXX sinkId).suffix_link = some rootId ∧
    (getNode (initState (C := Nat)) rootId).suffix_link = some sinkId ∧
    (getNode (initState (C := Nat)) sinkId).suffix_link = some rootId ∧
    (∀ (st0 : STree Nat) (fuel : Nat) (s : Option Nat)
        (ki : mapped_substring) (sk0 : Option Nat × Int) (st0' : STree Nat),
      WF st0 →
      (∀ sn, s = some sn → (Reach st0 sn ∨ sn = sinkId)) →
      update fuel st0 s ki = some (sk0, st0') →
      ∀ m, st0.nodes.length ≤ m → m < st0'.nodes.length →
        (getNode st0' m).isLeaf = false →
        (getNode st0' m).suffix_link ≠ none) := by
  have h : addString (initState (C := Nat)) [1, 1] = some (1, stXX) := by
    decide
  exact C8_theorem WF_initState h (by decide)

/-! ## Claim C9: teardown frees every allocated node exactly once -/

lemma cleanLoop_ok {st : STree C} (hwf : WF st) :
    ∀ (fuel : Nat) (wl : List (Option Nat)) (freed : List Nat),
    (∀ x ∈ wl, ∃ m, x = some m ∧ 2 ≤ m ∧ m < st.nodes.length) →
    (∀ q ∈ freed, 2 ≤ q ∧ q < st.nodes.length) →
    (rootId :: freed).Nodup →
    (∀ m : Nat, freed.count m + wl.count (some m) =
      ((rootId :: freed).map (fun q => tgtCount (getNode st q) m)).sum) →
    (wl.length + (∑ q in Finset.range st.nodes.length \
      (rootId :: freed).toFinset, (getNode st q).g.length) + 1 ≤ fuel) →
    ∃ ffAcc, cleanLoop st fuel wl freed = some ffAcc.reverse ∧
      (∀ q ∈ ffAcc, 2 ≤ q ∧ q < st.nodes.length) ∧
      (rootId :: ffAcc).Nodup ∧
      (∀ m : Nat, ffAcc.count m =
        ((rootId :: ffAcc).map (fun q => tgtCount (getNode st q) m)).sum) := by
  intro fuel
  induction fuel with
  | zero =>
    intro wl freed hwl hfr hnd hcnt hfuel
    exact absurd hfuel (by omega)
  | succ fuel ih =>
    intro wl freed hwl hfr hnd hcnt hfuel
    cases wl with
    | nil =>
      refine ⟨freed, rfl, hfr, hnd, ?_⟩
      intro m
      have h2 := hcnt m
      simpa using h2
    | cons x rest =>
      obtain ⟨n, hxn, hn2, hnL⟩ := hwl x (List.mem_cons_self x rest)
      subst hxn
      have hnroot : n ≠ rootId := by show n ≠ 0; omega
      have hsum_le : ((rootId :: freed).map
          (fun q => tgtCount (getNode st q) n)).sum ≤ countTgt st n := by
        refine sum_tgt_nodup_le hnd ?_ n
        intro q hq
        rcases List.mem_cons.mp hq with rfl | hq
        · show 0 < st.nodes.length
          have := hwf.size
          omega
        · exact (hfr q hq).2
      have hct1 : countTgt st n = 1 := hwf.indeg n hn2 hnL
      have hcn := hcnt n
      have hwlc : (some n :: rest).count (some n) =
          rest.count (some n) + 1 := by
        rw [List.count_cons]
        simp
      have hfn : freed.count n = 0 := by omega
      have hnin : n ∉ freed := List.count_eq_zero.mp hfn
      have hstep : cleanLoop st (fuel + 1) (some n :: rest) freed =
          cleanLoop st fuel
            (rest ++ (getNode st n).g.map (fun p => p.2.tgt))
            (n :: freed) := by
        have e1 : cleanLoop st (fuel + 1) (some n :: rest) freed =
            cleanLoop st fuel
              (rest ++ (getNode st n).g.map (fun p => p.2.tgt))
              (if n ≠ rootId then n :: freed else freed) := rfl
        rw [e1, if_pos hnroot]
      have hwl' : ∀ x ∈ rest ++ (getNode st n).g.map (fun p => p.2.tgt),
          ∃ m, x = some m ∧ 2 ≤ m ∧ m < st.nodes.length := by
        intro x hx
        rcases List.mem_append.mp hx with hx | hx
        · exact hwl x (List.mem_cons_of_mem _ hx)
        · obtain ⟨p, hp, hpx⟩ := List.mem_map.mp hx
          obtain ⟨c1, t1⟩ := p
          obtain ⟨m, hm, hm2, hmL⟩ := hwf.trOK _ (getNode_mem hnL) c1 t1 hp
          exact ⟨m, by rw [← hpx]; exact hm, hm2, hmL⟩
      have hfr' : ∀ q ∈ n :: freed, 2 ≤ q ∧ q < st.nodes.length := by
        intro q hq
        rcases List.mem_cons.mp hq with rfl | hq
        · exact ⟨hn2, hnL⟩
        · exact hfr q hq
      obtain ⟨hroot_nin, hfreed_nd⟩ := List.nodup_cons.mp hnd
      have hnd' : (rootId :: n :: freed).Nodup := by
        refine List.nodup_cons.mpr ⟨?_, List.nodup_cons.mpr ⟨hnin, hfreed_nd⟩⟩
        intro hc
        rcases List.mem_cons.mp hc with hc | hc
        · exact hnroot hc.symm
        · exact hroot_nin hc
      have hcnt' : ∀ m : Nat, (n :: freed).count m +
          (rest ++ (getNode st n).g.map (fun p => p.2.tgt)).count (some m) =
          ((rootId :: n :: freed).map
            (fun q => tgtCount (getNode st q) m)).sum := by
        intro m
        have hold := hcnt m
        have hTn : ((getNode st n).g.map
            (fun p => p.2.tgt)).count (some m) =
            tgtCount (getNode st n) m := count_map_tgt _ _
        rw [List.count_cons, List.count_append, hTn, List.map_cons,
          List.sum_cons, List.map_cons, List.sum_cons]
        rw [List.count_cons, List.map_cons, List.sum_cons] at hold
        simp only [beq_iff_eq] at hold ⊢
        have hif : (if (some n : Option Nat) = some m then 1 else 0) =
            (if n = m then 1 else 0) := by
          by_cases hm : n = m <;> simp [hm]
        omega
      have hmemn : n ∈ Finset.range st.nodes.length \
          (rootId :: freed).toFinset := by
        rw [Finset.mem_sdiff, Finset.mem_range]
        refine ⟨hnL, ?_⟩
        rw [List.mem_toFinset]
        intro hc
        rcases List.mem_cons.mp hc with hc | hc
        · exact hnroot hc
        · exact hnin hc
      have hsd : Finset.range st.nodes.length \
          (rootId :: n :: freed).toFinset =
          (Finset.range st.nodes.length \
            (rootId :: freed).toFinset).erase n := by
        ext q
        simp only [Finset.mem_sdiff, Finset.mem_range, Finset.mem_erase,
          List.mem_toFinset, List.mem_cons]
        constructor
        · intro ⟨h1, h2⟩
          exact ⟨fun he => h2 (Or.inr (Or.inl he)), h1, fun hc => h2 (by tauto)⟩
        · intro ⟨h1, h2, h3⟩
          refine ⟨h2, ?_⟩
          intro hc
          rcases hc with hc | hc | hc
          · exact h3 (Or.inl hc)
          · exact h1 hc
          · exact h3 (Or.inr hc)
      have hsum0 := Finset.add_sum_erase
        (Finset.range st.nodes.length \ (rootId :: freed).toFinset)
        (fun q => (getNode st q).g.length) hmemn
      have hsum : (getNode st n).g.length +
          ∑ q in (Finset.range st.nodes.length \
            (rootId :: freed).toFinset).erase n, (getNode st q).g.length =
          ∑ q in Finset.range st.nodes.length \
            (rootId :: freed).toFinset, (getNode st q).g.length := hsum0
      have hfuel' : (rest ++ (getNode st n).g.map
          (fun p => p.2.tgt)).length +
          (∑ q in Finset.range st.nodes.length \
            (rootId :: n :: freed).toFinset,
            (getNode st q).g.length) + 1 ≤ fuel := by
        rw [List.length_append, List.length_map, hsd]
        have hl0 : (some n :: rest).length = rest.length + 1 := rfl
        rw [hl0] at hfuel
        omega
      obtain ⟨ffAcc, hclean, hbnd, hndF, hcntF⟩ :=
        ih _ _ hwl' hfr' hnd' hcnt' hfuel'
      exact ⟨ffAcc, by rw [hstep]; exact hclean, hbnd, hndF, hcntF⟩

/-- Claim C9: after any sequence of successful and failed insertions run
from the fresh tree, the iterative worklist teardown terminates, frees
every dynamically allocated node (arena index at least 2) exactly once,
and never frees the root's or the sink's storage. -/
theorem C9_theorem {ws : List (List C)} {rs : List Int} {st : STree C}
    (h : runList ws = some (rs, st)) :
    ∃ freed, clean st = some freed ∧
      (∀ m, 2 ≤ m → m < st.nodes.length → freed.count m = 1) ∧
      (∀ q ∈ freed, 2 ≤ q ∧ q < st.nodes.length) ∧
      rootId ∉ freed ∧ sinkId ∉ freed := by
  have hwf := runList_wf h
  have hsize := hwf.size
  have h0 : clean st = cleanLoop st
      ((st.nodes.map (fun nd => nd.g.length)).sum + 1)
      ((getNode st rootId).g.map (fun p => p.2.tgt)) [] := by
    rw [clean]
    rfl
  have hwl0 : ∀ x ∈ (getNode st rootId).g.map (fun p => p.2.tgt),
      ∃ m, x = some m ∧ 2 ≤ m ∧ m < st.nodes.length := by
    intro x hx
    obtain ⟨p, hp, hpx⟩ := List.mem_map.mp hx
    obtain ⟨c1, t1⟩ := p
    obtain ⟨m, hm, hm2, hmL⟩ := hwf.trOK _
      (getNode_mem (show rootId < st.nodes.length from
        by show 0 < st.nodes.length; omega)) c1 t1 hp
    exact ⟨m, by rw [← hpx]; exact hm, hm2, hmL⟩
  have hr0 : rootId ∈ Finset.range st.nodes.length := by
    rw [Finset.mem_range]
    show 0 < st.nodes.length
    omega
  have hsd : Finset.range st.nodes.length \
      ((rootId :: ([] : List Nat)).toFinset) =
      (Finset.range st.nodes.length).erase rootId := by
    ext q
    simp only [Finset.mem_sdiff, Finset.mem_range, Finset.mem_erase,
      List.mem_toFinset, List.mem_cons, List.not_mem_nil, or_false]
    tauto
  have hsum0 := Finset.add_sum_erase (Finset.range st.nodes.length)
    (fun q => (getNode st q).g.length) hr0
  have hsum : (getNode st rootId).g.length +
      ∑ q in (Finset.range st.nodes.length).erase rootId,
        (getNode st q).g.length =
      ∑ q in Finset.range st.nodes.length, (getNode st q).g.length := hsum0
  have hedges := edges_eq_rangeSum st
  obtain ⟨ffAcc, hclean, hbnd, hndF, hcntF⟩ := cleanLoop_ok hwf
    ((st.nodes.map (fun nd => nd.g.length)).sum + 1)
    ((getNode st rootId).g.map (fun p => p.2.tgt)) []
    hwl0
    (fun q hq => absurd hq (List.not_mem_nil q))
    (by simp)
    (by
      intro m
      have hTn : ((getNode st rootId).g.map
          (fun p => p.2.tgt)).count (some m) =
          tgtCount (getNode st rootId) m := count_map_tgt _ _
      simp [hTn])
    (by
      rw [List.length_map, hsd]
      omega)
  have hcomplete : ∀ m, Reach st m → m = rootId ∨ m ∈ ffAcc := by
    intro m hm
    induction hm with
    | root => exact Or.inl rfl
    | step ha hmem htgt ihc =>
      rename_i a b c tr
      right
      have haIn : a ∈ rootId :: ffAcc := by
        rcases ihc with h1 | h1
        · rw [h1]; exact List.mem_cons_self _ _
        · exact List.mem_cons_of_mem _ h1
      have htc : 0 < tgtCount (getNode st a) b := by
        rw [tgtCount, List.countP_pos_iff]
        exact ⟨(c, tr), hmem, by simp [htgt]⟩
      have hmemMap : tgtCount (getNode st a) b ∈
          ((rootId :: ffAcc).map (fun q => tgtCount (getNode st q) b)) :=
        List.mem_map_of_mem _ haIn
      have hsum2 : tgtCount (getNode st a) b ≤
          ((rootId :: ffAcc).map (fun q => tgtCount (getNode st q) b)).sum :=
        List.single_le_sum (fun x _ => Nat.zero_le x) _ hmemMap
      have hcb := hcntF b
      by_contra hc
      have hz := List.count_eq_zero.mpr hc
      omega
  have hcount : ∀ m, 2 ≤ m → m < st.nodes.length → ffAcc.count m = 1 := by
    intro m hm2 hmL
    have hsum_le : ((rootId :: ffAcc).map
        (fun q => tgtCount (getNode st q) m)).sum ≤ countTgt st m := by
      refine sum_tgt_nodup_le hndF ?_ m
      intro q hq
      rcases List.mem_cons.mp hq with rfl | hq
      · show 0 < st.nodes.length; omega
      · exact (hbnd q hq).2
    have hct1 : countTgt st m = 1 := hwf.indeg m hm2 hmL
    have hcm := hcntF m
    have hmem : m ∈ ffAcc := by
      rcases hcomplete m (hwf.allReach m hm2 hmL) with h1 | h1
      · exfalso
        rw [h1] at hm2
        exact absurd hm2 (by decide)
      · exact h1
    have hpos : 0 < ffAcc.count m := by
      by_contra hc
      push_neg at hc
      have : ffAcc.count m = 0 := by omega
      exact absurd hmem (List.count_eq_zero.mp this)
    omega
  refine ⟨ffAcc.reverse, by rw [h0]; exact hclean, ?_, ?_, ?_, ?_⟩
  · intro m hm2 hmL
    rw [List.count_reverse]
    exact hcount m hm2 hmL
  · intro q hq
    rw [List.mem_reverse] at hq
    exact hbnd q hq
  · intro hc
    rw [List.mem_reverse] at hc
    have := (hbnd rootId hc).1
    exact absurd this (by decide)
  · intro hc
    rw [List.mem_reverse] at hc
    have := (hbnd sinkId hc).1
    exact absurd this (by decide)

/-- Witness for C9 at a concrete input: after inserting `[1, 1]`, the
teardown of the resulting tree satisfies the conclusion. -/
theorem C9_witness :
    ∃ freed, clean stXX = some freed ∧
      (∀ m, 2 ≤ m → m < stXX.nodes.length → freed.count m = 1) ∧
      (∀ q ∈ freed, 2 ≤ q ∧ q < stXX.nodes.length) ∧
      rootId ∉ freed ∧ sinkId ∉ freed := by
  have h : runList [[1, 1]] = some ([1], stXX) := by decide
  exact C9_theorem h


/-! ## Claim C1: round-trip membership fails - a suffix can be lost -/

/-- Bounded certificate that no path of stored transitions from node `n`
spells a string having `u` as a prefix: every outgoing stored transition
either has no target, or its resolved label and `u` diverge, and when the
label is a prefix of `u` the rest of `u` is certified below the target. -/
def noTraceB (st : STree C) : Nat → Nat → List C → Bool
  | _, _, [] => false
  | 0, _, _ => false
  | fuel + 1, n, u =>
    (getNode st n).g.all (fun p =>
      match p.2.tgt with
      | none => true
      | some b =>
        !(decide (u <+: resolveSub st p.2.sub)) &&
          (if resolveSub st p.2.sub <+: u then
            noTraceB st fuel b (u.drop (resolveSub st p.2.sub).length)
          else true))

lemma noTraceB_sound {st : STree C} :
    ∀ {p : List C} {n0 n' : Nat}, PathSpell st n0 p n' →
    ∀ (u : List C) (fuel : Nat), u ≠ [] → noTraceB st fuel n0 u = true →
    ¬ (u <+: p) := by
  intro p n0 n' hps
  induction hps with
  | nil =>
    intro u fuel hne h hpre
    exact hne (List.prefix_nil.mp hpre)
  | cons hmem htgt hrest ih =>
    rename_i a b n2 c tr u2
    intro u fuel hne h hpre
    cases u with
    | nil => exact hne rfl
    | cons x0 u0 =>
      cases fuel with
      | zero => simp [noTraceB] at h
      | succ fuel =>
        simp only [noTraceB] at h
        rw [List.all_eq_true] at h
        have h2 := h (c, tr) hmem
        have h3 : (match tr.tgt with
            | none => true
            | some b =>
              !(decide ((x0 :: u0) <+: resolveSub st tr.sub)) &&
                (if resolveSub st tr.sub <+: (x0 :: u0) then
                  noTraceB st fuel b
                    ((x0 :: u0).drop (resolveSub st tr.sub).length)
                else true)) = true := h2
        rw [htgt] at h3
        have h4 : (!(decide ((x0 :: u0) <+: resolveSub st tr.sub)) &&
            (if resolveSub st tr.sub <+: (x0 :: u0) then
              noTraceB st fuel b
                ((x0 :: u0).drop (resolveSub st tr.sub).length)
            else true)) = true := h3
        rw [Bool.and_eq_true] at h4
        obtain ⟨h5, h6⟩ := h4
        have hnpre : ¬ ((x0 :: u0) <+: resolveSub st tr.sub) := by
          simpa using h5
        by_cases hlen : (x0 :: u0).length ≤ (resolveSub st tr.sub).length
        · exact hnpre (List.prefix_of_prefix_length_le hpre
            (List.prefix_append _ _) hlen)
        · push_neg at hlen
          have hlab : resolveSub st tr.sub <+: (x0 :: u0) :=
            List.prefix_of_prefix_length_le (List.prefix_append _ _) hpre
              (by omega)
          rw [if_pos hlab] at h6
          obtain ⟨u3, hu3⟩ := hlab
          have hdrop : (x0 :: u0).drop (resolveSub st tr.sub).length = u3 := by
            rw [← hu3, List.drop_left]
          have hne3 : u3 ≠ [] := by
            intro hc
            subst hc
            have hlen2 := congrArg List.length hu3
            simp at hlen2
            have hlc : (x0 :: u0).length = u0.length + 1 := rfl
            omega
          have hpre3 : u3 <+: u2 := by
            obtain ⟨s, hs⟩ := hpre
            rw [← hu3, List.append_assoc] at hs
            exact ⟨s, List.append_cancel_left hs⟩
          rw [hdrop] at h6
          exact ih u3 fuel hne3 h6 hpre3

/-- The state after inserting `aa` (= `[1,1]`, id 1) and then `aaab`
(= `[1,1,1,2]`, id 2); both insertions return positive ids. -/
def stAaab : STree Nat :=
  ((runList ([[1, 1], [1, 1, 1, 2]] : List (List Nat))).map Prod.snd).getD
    default

/-- Claim C1: round-trip membership is violated by the code on a concrete
successful insertion.  Inserting `aa` and then `aaab` both succeed (ids 1
and 2), yet the non-empty suffix `ab` (= `[1,2]`) of `aaab` corresponds to
no traversable path from the root: no path of stored transitions spells a
string that even begins with `ab` (so in particular none whose resolved
labels concatenate to exactly `ab`).  The edge scan of the insertion walk
treats string 1's open edge (right pointer `INT_MAX`) as extending past the
end of `aa`: it compares `aaab` against the out-of-range character
`aa[2]` (the terminating null of a `std::string`, the default symbol in
the model), declares an in-edge mismatch there, and `test_and_split` then
splits the edge one position past the string's extent, creating a node
with an empty-label transition keyed by the null symbol; the border-path
extensions that follow hang the new suffixes below that node, and the
suffix `ab` itself is never inserted. -/
theorem C1_theorem :
    runList ([[1, 1], [1, 1, 1, 2]] : List (List Nat)) =
      some ([1, 2], stAaab) ∧
    ([1, 1, 1, 2] : List Nat).drop 2 = [1, 2] ∧
    ¬ Traceable stAaab ([1, 2] : List Nat) ∧
    ¬ ∃ m, PathSpell stAaab rootId ([1, 2] : List Nat) m := by
  have hno : noTraceB stAaab 10 rootId ([1, 2] : List Nat) = true := by
    decide
  have hnt : ¬ Traceable stAaab ([1, 2] : List Nat) := by
    rintro ⟨p, n', hp, hpre⟩
    exact noTraceB_sound hp ([1, 2] : List Nat) 10 (by decide) hno hpre
  refine ⟨by decide, by decide, hnt, ?_⟩
  rintro ⟨m, hm⟩
  exact hnt ⟨[1, 2], m, hm, List.prefix_refl _⟩
